import Mathlib

/-!
# Verification of the Bulgarian Electrical Grid Assistant core

Shallow embedding of the address-normalization / fuzzy-matching engine
(`custom_components/bulgarian_electrical_grid_assistant/__init__.py`) and of the
resilient-fetch pipeline (`crawlers/base.py`), together with theorems settling
the specification claims about them.

Strings are modelled as `List Char` (Python `str`, one element per code point).
Python `datetime` / event-loop instants are modelled as natural numbers counting
seconds.  Python's `str.lower`, `\s`, `\w` and `str.isdigit` are modelled for
the character repertoire the program works over (ASCII plus Cyrillic); this is
noted at each definition.
-/

namespace Grid

/-- Characters matched by Python's `\s` (ASCII whitespace; the program's data
is ASCII/Cyrillic text where these are the only whitespace involved). -/
def isSpaceChar (c : Char) : Bool :=
  c = ' ' || c = '\t' || c = '\n' || c = '\r' || c = '\x0b' || c = '\x0c'

/-- Characters matched by Python's `\w` on the ASCII + Cyrillic repertoire:
ASCII letters, digits, underscore, and Cyrillic letters а-я/А-Я/ё/Ё.
Used for the `\b` word boundaries of `_normalize_address`'s regexes. -/
def isWordChar (c : Char) : Bool :=
  ('a' ≤ c && c ≤ 'z') || ('A' ≤ c && c ≤ 'Z') || ('0' ≤ c && c ≤ '9') ||
  c = '_' || (1040 ≤ c.toNat && c.toNat ≤ 1103) || c.toNat = 1025 || c.toNat = 1105

/-- Python `str.lower` restricted to the ASCII + Cyrillic repertoire:
`A`-`Z` and `А`-`Я` shift by 32 code points, `Ё` maps to `ё`. -/
def toLowerChar (c : Char) : Char :=
  if 65 ≤ c.toNat && c.toNat ≤ 90 then Char.ofNat (c.toNat + 32)
  else if 1040 ≤ c.toNat && c.toNat ≤ 1071 then Char.ofNat (c.toNat + 32)
  else if c.toNat = 1025 then Char.ofNat 1105
  else c

/-- `address.lower()` on the modelled repertoire. -/
def lowerStr (s : List Char) : List Char :=
  s.map toLowerChar

/-- `str.strip()`: drop leading and trailing whitespace. -/
def stripStr (s : List Char) : List Char :=
  ((s.dropWhile isSpaceChar).reverse.dropWhile isSpaceChar).reverse

/-- Helper for `re.sub(r'\s+', ' ', s)`: the `Bool` records whether the
previously emitted character was (the collapse of) whitespace. -/
def collapseWsAux : List Char → Bool → List Char
  | [], _ => []
  | c :: cs, prevWs =>
    if isSpaceChar c then
      if prevWs then collapseWsAux cs true else ' ' :: collapseWsAux cs true
    else c :: collapseWsAux cs false

/-- `re.sub(r'\s+', ' ', s)`: collapse every whitespace run to one space. -/
def collapseWs (s : List Char) : List Char :=
  collapseWsAux s false

/-- Flush one maximal word-character run (held reversed in `acc`):
if it equals the abbreviation it is replaced, otherwise kept. -/
def flushWord (abbr repl acc : List Char) : List Char :=
  if acc.reverse = abbr then repl else acc.reverse

/-- Accumulator recursion for `re.sub(r'\bABBR\b', REPL, s)` where `ABBR`
consists of word characters only: exactly the maximal word-character runs
equal to `ABBR` are replaced (a `\b` boundary holds precisely at the edges
of maximal word runs). -/
def replaceWordAux (abbr repl : List Char) : List Char → List Char → List Char
  | [], acc => flushWord abbr repl acc
  | c :: cs, acc =>
    if isWordChar c then replaceWordAux abbr repl cs (c :: acc)
    else flushWord abbr repl acc ++ c :: replaceWordAux abbr repl cs []

/-- `re.sub(r'\bABBR\b', REPL, s)` for a word-character-only `ABBR`. -/
def replaceWord (abbr repl s : List Char) : List Char :=
  replaceWordAux abbr repl s []

/-- The `replacements` table of `_normalize_address`, in its iteration order. -/
def replacements : List (List Char × List Char) :=
  [("ул".data, "улица".data), ("бул".data, "булевард".data),
   ("пл".data, "площад".data), ("кв".data, "квартал".data),
   ("жк".data, "жилищен комплекс".data), ("бл".data, "блок".data)]

/-- The `for pattern, replacement in replacements.items()` loop. -/
def applyReplacements (s : List Char) : List Char :=
  replacements.foldl (fun acc pr => replaceWord pr.1 pr.2 acc) s

/-- `PowerInterruptionDataCoordinator._normalize_address`. -/
def normalize_address (address : List Char) : List Char :=
  if address = [] then []
  else applyReplacements (collapseWs (stripStr (lowerStr address)))

/-- The `stop_words` set of `_extract_significant_words`. -/
def stop_words : List (List Char) :=
  ["улица".data, "булевард".data, "площад".data, "квартал".data,
   "жилищен".data, "комплекс".data, "блок".data, "вход".data,
   "апартамент".data, "етаж".data, "и".data, "в".data, "на".data,
   "до".data, "от".data]

/-- Python `str.isdigit` on the modelled repertoire: nonempty and all
ASCII decimal digits. -/
def isDigits (w : List Char) : Bool :=
  !w.isEmpty && w.all (fun c => '0' ≤ c && c ≤ '9')

/-- `str.split()` with no separator: split on whitespace runs, no empty
tokens.  `acc` holds the current token reversed. -/
def splitWsAux : List Char → List Char → List (List Char)
  | [], acc => if acc = [] then [] else [acc.reverse]
  | c :: cs, acc =>
    if isSpaceChar c then
      if acc = [] then splitWsAux cs [] else acc.reverse :: splitWsAux cs []
    else splitWsAux cs (c :: acc)

/-- `address.split()`. -/
def splitWs (s : List Char) : List (List Char) :=
  splitWsAux s []

/-- The per-token filter of `_extract_significant_words` (the final
`len(word) == 3 and word.isdigit()` clause of the source is kept although it
is subsumed by the `not word.isdigit()` clause before it). -/
def isSignificantWord (w : List Char) : Bool :=
  decide (2 < w.length) && !decide (w ∈ stop_words) && !isDigits w &&
    !(decide (w.length = 3) && isDigits w)

/-- `PowerInterruptionDataCoordinator._extract_significant_words`; the Python
`set` is modelled as a deduplicated list (only membership and cardinality of
these sets are ever consumed). -/
def extract_significant_words (address : List Char) : List (List Char) :=
  if address = [] then []
  else ((splitWs address).filter isSignificantWord).dedup

/-- The pattern dictionary built by `_prepare_address_patterns` for one
configured address. -/
structure AddressPattern where
  original : List Char
  normalized : List Char
  words : List (List Char)
  length : Nat
  deriving DecidableEq, Repr

/-- One entry of `_prepare_address_patterns`. -/
def mkPattern (addr : List Char) : AddressPattern :=
  let n := normalize_address addr
  { original := addr, normalized := n,
    words := extract_significant_words n, length := n.length }

/-- `PowerInterruptionDataCoordinator._prepare_address_patterns`. -/
def prepare_address_patterns (addresses : List (List Char)) : List AddressPattern :=
  addresses.map mkPattern

/-- Python `needle in hay` for strings: contiguous substring test. -/
def containsSub (hay needle : List Char) : Bool :=
  (List.range (hay.length + 1)).any (fun i => (hay.drop i).take needle.length = needle)

/-- `min(len)/max(len) >= 0.5` of strategy 2, with the float division read as
exact rational arithmetic: `min/max ≥ 1/2 ↔ 2*min ≥ max`. -/
def ratioOk (m n : Nat) : Bool :=
  decide (2 * Nat.min m n ≥ Nat.max m n)

/-- Significant-word overlap `user_pattern['words'].intersection(affected_words)`
as a deduplicated list. -/
def overlapWords (uw aw : List (List Char)) : List (List Char) :=
  uw.filter (fun w => decide (w ∈ aw))

/-- `PowerInterruptionDataCoordinator._is_address_match`, strategy by strategy:
exact normalized equality, containment with the length-ratio guard, and the
significant-word-overlap rule (which, as in the source, *returns* its decision
rather than falling through). -/
def is_address_match (p : AddressPattern) (affected : List Char) : Bool :=
  if affected = [] then false
  else
    let an := normalize_address affected
    let aw := extract_significant_words an
    if p.normalized = an then true
    else if (containsSub an p.normalized || containsSub p.normalized an) &&
        ratioOk p.normalized.length an.length then true
    else if !p.words.isEmpty && !aw.isEmpty then
      if p.words.length = 1 && aw.length = 1 then
        decide (1 ≤ (overlapWords p.words aw).length)
      else
        decide (2 ≤ (overlapWords p.words aw).length)
    else false

/-- One scraped interruption record.  The Python dict is modelled with every
required field present; a missing field and an empty value are observationally
identical to `_validate_interruption_data` (`field not in d or not d[field]`),
so absence is modelled by the empty value. -/
structure Interruption where
  date : List Char
  time : List Char
  addresses : List (List Char)
  provider : List Char
  itype : List Char
  deriving DecidableEq, Repr

/-- `PowerInterruptionDataCoordinator._validate_interruption_data`. -/
def validate_interruption_data (i : Interruption) : Bool :=
  !i.date.isEmpty && !i.time.isEmpty && !i.addresses.isEmpty &&
  !i.provider.isEmpty && !i.itype.isEmpty &&
  i.addresses.all (fun a => decide (3 ≤ (stripStr a).length)) &&
  (i.itype = "planned".data || i.itype = "unplanned".data)

/-- One element of the `matched` list built by `_find_matches`. -/
structure MatchResult where
  matched_address : List Char
  affected_address : List Char
  date : List Char
  time : List Char
  addresses : List (List Char)
  provider : List Char
  itype : List Char
  deriving DecidableEq, Repr

/-- The two inner loops of `_find_matches` for one interruption: the first
pattern (in order) having a matching announced address yields one result built
from the first such address, and both loops then `break`. -/
def matchInterruption (pats : List AddressPattern) (i : Interruption) :
    Option MatchResult :=
  (pats.findSome? fun p =>
    (i.addresses.find? (fun a => is_address_match p a)).map fun a => (p, a)).map
    fun pa =>
      { matched_address := pa.1.original, affected_address := pa.2,
        date := i.date, time := i.time, addresses := i.addresses,
        provider := i.provider, itype := i.itype }

/-- `PowerInterruptionDataCoordinator._find_matches` (the records reaching it
always carry a list of addresses, so the `isinstance` guard never skips). -/
def find_matches (pats : List AddressPattern) (ints : List Interruption) :
    List MatchResult :=
  ints.filterMap (matchInterruption pats)

/-- The coordinator's mutable per-instance data touched by `_async_update_data`:
`_last_request_times`, `matched_addresses`, `all_interruptions`. -/
structure CoordState where
  lastRequestTimes : List (List Char × Nat)
  matchedAddresses : List MatchResult
  allInterruptions : List Interruption
  deriving DecidableEq, Repr

/-- `self._last_request_times.get(provider, 0)`. -/
def getTime (lt : List (List Char × Nat)) (p : List Char) : Nat :=
  ((lt.find? (fun e => decide (e.1 = p))).map (·.2)).getD 0

/-- One `self._last_request_times[provider] = current_time` store. -/
def setTime (lt : List (List Char × Nat)) (p : List Char) (t : Nat) :
    List (List Char × Nat) :=
  if lt.any (fun e => decide (e.1 = p)) then
    lt.map (fun e => if e.1 = p then (p, t) else e)
  else lt ++ [(p, t)]

/-- The `for provider in self.crawlers: self._last_request_times[provider] = current_time` loop. -/
def setTimes (lt : List (List Char × Nat)) (ps : List (List Char)) (t : Nat) :
    List (List Char × Nat) :=
  ps.foldl (fun acc p => setTime acc p t) lt

/-- Outcome of one crawler's `asyncio.wait_for(crawler.async_get_interruptions(), 30)`
inside `asyncio.gather(..., return_exceptions=True)`: a timeout, another
exception, a list of records, or a non-list value. -/
inductive CrawlResult
  | timeout
  | excn
  | records (rs : List Interruption)
  | other
  deriving DecidableEq, Repr

/-- The result-processing loop of `_async_update_data`: valid records of list
results are concatenated in provider order; timeouts, exceptions and non-list
results contribute nothing. -/
def collectValid (results : List CrawlResult) : List Interruption :=
  results.foldl
    (fun acc r =>
      match r with
      | .records rs => acc ++ rs.filter validate_interruption_data
      | _ => acc)
    []

/-- The dictionary `_async_update_data` returns. -/
structure UpdateOutput where
  matched : List MatchResult
  all_interruptions : List Interruption
  deriving DecidableEq, Repr

/-- `PowerInterruptionDataCoordinator._async_update_data`, as a function of the
precompiled patterns, the enabled crawler names, the coordinator state, the
event-loop time and the gathered per-crawler outcomes (in crawler order).
Returns the value given to the caller together with the new coordinator state.
Python's (float) `current_time - last_time < 60` agrees with the truncated
`Nat` subtraction used here, the loop clock being monotone. -/
def async_update_data (pats : List AddressPattern) (crawlers : List (List Char))
    (st : CoordState) (currentTime : Nat) (results : List CrawlResult) :
    UpdateOutput × CoordState :=
  if crawlers = [] then ({ matched := [], all_interruptions := [] }, st)
  else if crawlers.any (fun p => currentTime - getTime st.lastRequestTimes p < 60) then
    ({ matched := st.matchedAddresses, all_interruptions := st.allInterruptions }, st)
  else
    let lt := setTimes st.lastRequestTimes crawlers currentTime
    let allInts := collectValid results
    let matched := find_matches pats allInts
    ({ matched := matched, all_interruptions := allInts },
     { lastRequestTimes := lt,
       matchedAddresses := matched.take 50,
       allInterruptions := allInts.take 200 })

/-! ## The resilient fetcher (`crawlers/base.py`) -/

/-- `BaseCrawler._max_failures`. -/
def maxFailures : Nat := 3

/-- `BaseCrawler._circuit_breaker_timeout`, in seconds (15 minutes). -/
def breakerTimeout : Nat := 900

/-- `BaseCrawler._cache_duration`, in seconds (30 minutes). -/
def cacheDuration : Nat := 1800

/-- `BaseCrawler._max_retries`. -/
def maxRetries : Nat := 2

/-- The circuit-breaker fields of a crawler:
`_failure_count` and `_circuit_breaker_reset_time`. -/
structure BreakerState where
  failureCount : Nat
  resetTime : Option Nat
  deriving DecidableEq, Repr

/-- `BaseCrawler._is_circuit_breaker_open`; it also performs the
open→closed reset, so it returns the updated state. -/
def is_circuit_breaker_open (now : Nat) (st : BreakerState) : Bool × BreakerState :=
  if st.failureCount < maxFailures then (false, st)
  else
    match st.resetTime with
    | some t => if now > t then (false, { failureCount := 0, resetTime := none }) else (true, st)
    | none => (true, st)

/-- `BaseCrawler._record_success`. -/
def record_success (_st : BreakerState) : BreakerState :=
  { failureCount := 0, resetTime := none }

/-- `BaseCrawler._record_failure`. -/
def record_failure (now : Nat) (st : BreakerState) : BreakerState :=
  let fc := st.failureCount + 1
  { failureCount := fc,
    resetTime := if fc ≥ maxFailures then some (now + breakerTimeout) else st.resetTime }

/-- One entry of `BaseCrawler._cache`; the md5 key is modelled by the URL
itself (the program only ever uses the key for exact lookup). -/
structure CacheEntry where
  url : List Char
  content : List Char
  timestamp : Nat
  deriving DecidableEq, Repr

/-- `BaseCrawler._cache`. -/
abbrev Cache := List CacheEntry

/-- `self._cache.get(cache_key)` followed by `_is_cache_valid`: the cached
content when the entry exists and is younger than 30 minutes. -/
def validCachedContent (now : Nat) (url : List Char) (cache : Cache) :
    Option (List Char) :=
  match cache.find? (fun e => decide (e.url = url)) with
  | some e => if now - e.timestamp < cacheDuration then some e.content else none
  | none => none

/-- `self._cache[cache_key] = {...}`: store or overwrite. -/
def cacheInsert (url content : List Char) (now : Nat) (cache : Cache) : Cache :=
  if cache.any (fun e => decide (e.url = url)) then
    cache.map (fun e => if e.url = url then ⟨url, content, now⟩ else e)
  else cache ++ [⟨url, content, now⟩]

/-- `BaseCrawler._cleanup_cache`. -/
def cleanup_cache (now : Nat) (cache : Cache) : Cache :=
  cache.filter (fun e => !decide (now - e.timestamp > cacheDuration))

/-- `BaseCrawler._is_valid_content`. -/
def is_valid_content (content : List Char) : Bool :=
  !(content.isEmpty || (stripStr content).isEmpty) &&
  !decide (content.length < 100) &&
  !decide (content.length > 10 * 1024 * 1024) &&
  (["<html".data, "<body".data, "<div".data, "<table".data].any
    (fun tag => containsSub (lowerStr content) tag)) &&
  !(["404 not found".data, "403 forbidden".data, "500 internal server".data,
     "error occurred".data].any
    (fun ind => containsSub (lowerStr content) ind))

/-- `url.startswith(('http://', 'https://'))` and non-emptiness. -/
def validUrl (url : List Char) : Bool :=
  !url.isEmpty &&
  ("http://".data.isPrefixOf url || "https://".data.isPrefixOf url)

/-- What the network returns for one GET, abstracting `aiohttp`:
an HTTP 200 with a body, a 404/403, a retryable status (429, 503 or any other
non-200, which `_fetch_url_attempt` re-raises), or a timeout/connection error. -/
inductive HttpOutcome
  | ok (body : List Char)
  | denied
  | transientStatus
  | netError
  deriving DecidableEq, Repr

/-- What one `_fetch_url_attempt` call does: return a value or raise. -/
inductive AttemptResult
  | returns (r : Option (List Char))
  | raises
  deriving DecidableEq, Repr

/-- `BaseCrawler._fetch_url_attempt`: invalid URLs and 404/403 return `None`,
a 200 body failing `_is_valid_content` returns `None`, a valid 200 body is
returned, and every other outcome raises to the retry loop. -/
def fetch_url_attempt (url : List Char) (h : HttpOutcome) : AttemptResult :=
  if !validUrl url then .returns none
  else
    match h with
    | .ok body => if is_valid_content body then .returns (some body) else .returns none
    | .denied => .returns none
    | .transientStatus => .raises
    | .netError => .raises

/-- Everything `async_fetch_url` returns or mutates: the content, the breaker
state, the cache, and the number of `_fetch_url_attempt` calls performed. -/
structure FetchResult where
  content : Option (List Char)
  breaker : BreakerState
  cache : Cache
  attempts : Nat
  deriving DecidableEq, Repr

/-- The `for attempt in range(self._max_retries + 1)` loop of
`async_fetch_url`: `i` is the index of the next attempt, `r` the number of
attempts still allowed.  A truthy content caches, records success and returns;
a falsy returned content just moves to the next attempt; an exception sleeps
and retries, except on the final attempt where it records one failure.
The instants within one call are modelled by the single `now`. -/
def runAttempts (now : Nat) (url : List Char) (outcomes : Nat → HttpOutcome) :
    Nat → Nat → BreakerState → Cache → FetchResult
  | i, 0, st, cache => ⟨none, st, cache, i⟩
  | i, r + 1, st, cache =>
    match fetch_url_attempt url (outcomes i) with
    | .returns (some c) =>
      if c.isEmpty then runAttempts now url outcomes (i + 1) r st cache
      else
        ⟨some c, record_success st, cleanup_cache now (cacheInsert url c now cache), i + 1⟩
    | .returns none => runAttempts now url outcomes (i + 1) r st cache
    | .raises =>
      if r = 0 then ⟨none, record_failure now st, cache, i + 1⟩
      else runAttempts now url outcomes (i + 1) r st cache

/-- `BaseCrawler.async_fetch_url`, as a function of the current instant, the
URL, the per-attempt network outcomes, and the crawler's breaker and cache
state. -/
def async_fetch_url (now : Nat) (url : List Char) (outcomes : Nat → HttpOutcome)
    (st : BreakerState) (cache : Cache) : FetchResult :=
  match is_circuit_breaker_open now st with
  | (true, st1) => ⟨none, st1, cache, 0⟩
  | (false, st1) =>
    match validCachedContent now url cache with
    | some c => ⟨some c, st1, cache, 0⟩
    | none => runAttempts now url outcomes 0 (maxRetries + 1) st1 cache

/-! ## Statement helpers and concrete scenario data -/

/-- The word-overlap decision of `_is_address_match` (its strategy 3),
factored out for use in theorem statements. -/
def strategy3Decision (uw aw : List (List Char)) : Bool :=
  if !uw.isEmpty && !aw.isEmpty then
    if uw.length = 1 && aw.length = 1 then decide (1 ≤ (overlapWords uw aw).length)
    else decide (2 ≤ (overlapWords uw aw).length)
  else false

/-- A URL accepted by the scheme check of `_fetch_url_attempt`. -/
def urlX : List Char := "http://x.test/".data

/-- A body that passes `_is_valid_content`: long enough and containing a
structural marker. -/
def permBody : List Char := List.replicate 200 'x' ++ "<div>".data

/-- Attempt outcomes whose first attempt is an HTTP 404/403 and whose later
attempts succeed. -/
def outcomesC2 : Nat → HttpOutcome := fun i => if i = 0 then .denied else .ok permBody

/-- Attempt outcomes that are always an HTTP 404/403. -/
def outcomesDenied : Nat → HttpOutcome := fun _ => .denied

/-- Attempt outcomes that always succeed with a valid body. -/
def outcomesOk : Nat → HttpOutcome := fun _ => .ok permBody

/-- A minimal valid interruption record whose single address exactly equals a
configured address. -/
def recB : Interruption :=
  { date := "d".data, time := "t".data, addresses := ["абвгд".data],
    provider := "p".data, itype := "planned".data }

/-- Patterns for the single configured address of `recB`. -/
def patsB : List AddressPattern := prepare_address_patterns ["абвгд".data]

/-- The match result `_find_matches` produces for `patsB` and `recB`. -/
def mB : MatchResult :=
  { matched_address := "абвгд".data, affected_address := "абвгд".data,
    date := "d".data, time := "t".data, addresses := ["абвгд".data],
    provider := "p".data, itype := "planned".data }

/-- The scraped record of the end-to-end example of the specification. -/
def recTrakia : Interruption :=
  { date := "2024-05-01".data, time := "09:00-17:00".data,
    addresses := ["улица Тракия №5, блок 2".data], provider := "ERP".data,
    itype := "planned".data }

/-- Patterns for the configured address of the end-to-end example. -/
def patsTrakia : List AddressPattern := prepare_address_patterns ["ул. Тракия 5".data]

/-- A fresh coordinator state. -/
def st0 : CoordState := ⟨[], [], []⟩

/-- The coordinator state after one cycle over 51 copies of `recB`. -/
def st1C9 : CoordState :=
  (async_update_data patsB ["ERP".data] st0 100 [.records (List.replicate 51 recB)]).2

/-! ## Invariants used in the normalization-idempotence proof (claim C8) -/

/-- Every character is fixed by the lower-casing map. -/
abbrev LowerStable (y : List Char) : Prop :=
  ∀ c ∈ y, toLowerChar c = c

/-- The first character, if any, is not whitespace. -/
abbrev HeadNS (y : List Char) : Prop :=
  ∀ c ∈ y.head?, isSpaceChar c = false

/-- The last character, if any, is not whitespace. -/
abbrev LastNS (y : List Char) : Prop :=
  ∀ c ∈ y.getLast?, isSpaceChar c = false

/-- Every whitespace character is a plain space. -/
abbrev SpacesPlain (y : List Char) : Prop :=
  ∀ c ∈ y, isSpaceChar c = true → c = ' '

/-- No two adjacent whitespace characters. -/
abbrev NoWsPair (y : List Char) : Prop :=
  List.Chain' (fun a b => ¬(isSpaceChar a = true ∧ isSpaceChar b = true)) y

/-- The five space/case invariants every `_normalize_address` output enjoys. -/
abbrev Canon5 (y : List Char) : Prop :=
  LowerStable y ∧ HeadNS y ∧ LastNS y ∧ SpacesPlain y ∧ NoWsPair y

/-- Executable check for `NoWsPair`, for concrete strings. -/
def noWsPairB : List Char → Bool
  | [] => true
  | [_] => true
  | a :: b :: l => !(isSpaceChar a && isSpaceChar b) && noWsPairB (b :: l)

/-- `P` holds of every maximal word-character run of the string, scanned with
the current (reversed) run in `acc` — the same scanning scheme as
`replaceWordAux`. -/
def runsP (P : List Char → Bool) : List Char → List Char → Bool
  | [], acc => decide (acc = []) || P acc.reverse
  | c :: cs, acc =>
    if isWordChar c then runsP P cs (c :: acc)
    else (decide (acc = []) || P acc.reverse) && runsP P cs []

/-- No maximal word-character run of `s` equals `a`: on such strings
`re.sub(r'\bA\b', ..., s)` is the identity. -/
def noAbbrRun (a s : List Char) : Bool :=
  runsP (fun r => !decide (r = a)) s []

/-! ## Helper lemmas -/

theorem splitWs_nil : splitWs [] = [] := rfl

theorem mem_extract_significant_words {address w : List Char} :
    w ∈ extract_significant_words address ↔
      w ∈ splitWs address ∧ isSignificantWord w = true := by
  unfold extract_significant_words
  split
  · subst address
    simp [splitWs_nil]
  · simp [List.mem_dedup, List.mem_filter]

/-! ## Claim C10 -/

/-- C10: a whitespace-delimited token of an address is kept as a significant
word iff its length exceeds 2, it is not a stop word, and it is not purely
numeric; in particular the token `№5,` of the normalized address
`улица тракия №5, блок 2` counts as significant despite denoting a house
number. -/
theorem c10_significant_word_rule :
    (∀ address w : List Char, w ∈ splitWs address →
      (w ∈ extract_significant_words address ↔
        (2 < w.length ∧ w ∉ stop_words ∧ isDigits w = false))) ∧
    "№5,".data ∈
      extract_significant_words (normalize_address "улица Тракия №5, блок 2".data) := by
  constructor
  · intro address w hw
    rw [mem_extract_significant_words]
    unfold isSignificantWord
    constructor
    · rintro ⟨-, h⟩
      simp only [Bool.and_eq_true, decide_eq_true_eq, Bool.not_eq_true'] at h
      exact ⟨h.1.1.1, by simpa using h.1.1.2, h.1.2⟩
    · rintro ⟨h1, h2, h3⟩
      refine ⟨hw, ?_⟩
      simp [h1, h2, h3]
  · decide

/-- Witness for C10: the general rule applied to the concrete token `тракия`
of the concrete normalized address. -/
theorem c10_significant_word_rule_witness :
    "тракия".data ∈ extract_significant_words "улица тракия №5, блок 2".data :=
  (c10_significant_word_rule.1 "улица тракия №5, блок 2".data "тракия".data
    (by decide)).mpr (by decide)

/-! ## Claims C6 and C7 -/

theorem match_eq_strategy3 (u a : List Char)
    (hne : (mkPattern u).normalized ≠ normalize_address a)
    (hcont : ((containsSub (normalize_address a) (mkPattern u).normalized ||
               containsSub (mkPattern u).normalized (normalize_address a)) &&
              ratioOk (mkPattern u).normalized.length (normalize_address a).length)
             = false) :
    is_address_match (mkPattern u) a =
      strategy3Decision (mkPattern u).words
        (extract_significant_words (normalize_address a)) := by
  by_cases ha : a = []
  · subst ha
    simp [is_address_match, strategy3Decision, normalize_address,
      extract_significant_words]
  · simp only [is_address_match, strategy3Decision]
    rw [if_neg ha, if_neg hne, if_neg (by simp [hcont])]

/-- C6: when the normalized forms are neither equal nor accepted by the
containment strategy, `_is_address_match` is decided by the word-overlap rule:
no match if either significant-word set is empty, overlap ≥ 1 if both sets are
singletons, overlap ≥ 2 otherwise. -/
theorem c6_word_overlap_rule (u a : List Char)
    (hne : (mkPattern u).normalized ≠ normalize_address a)
    (hcont : ((containsSub (normalize_address a) (mkPattern u).normalized ||
               containsSub (mkPattern u).normalized (normalize_address a)) &&
              ratioOk (mkPattern u).normalized.length (normalize_address a).length)
             = false) :
    is_address_match (mkPattern u) a =
      strategy3Decision (mkPattern u).words
        (extract_significant_words (normalize_address a)) :=
  match_eq_strategy3 u a hne hcont

/-- Witness for C6: two addresses with distinct normalized forms, no
containment, and an overlap of one word out of two on each side — no match. -/
theorem c6_word_overlap_rule_witness :
    is_address_match (mkPattern "абв где".data) "абв еёж".data =
      strategy3Decision (mkPattern "абв где".data).words
        (extract_significant_words (normalize_address "абв еёж".data)) :=
  c6_word_overlap_rule "абв где".data "абв еёж".data (by decide) (by decide)

/-- C7: when one normalized form strictly contains the other, the containment
strategy accepts exactly when `min(len)/max(len) ≥ 0.5`: acceptance makes
`_is_address_match` true, and rejection leaves the decision to the
word-overlap strategy. -/
theorem c7_containment_ratio (u a : List Char)
    (hcont : (containsSub (normalize_address a) (mkPattern u).normalized ||
              containsSub (mkPattern u).normalized (normalize_address a)) = true)
    (hne : (mkPattern u).normalized ≠ normalize_address a) :
    (ratioOk (mkPattern u).normalized.length (normalize_address a).length = true →
      is_address_match (mkPattern u) a = true) ∧
    (ratioOk (mkPattern u).normalized.length (normalize_address a).length = false →
      is_address_match (mkPattern u) a =
        strategy3Decision (mkPattern u).words
          (extract_significant_words (normalize_address a))) := by
  constructor
  · intro hr
    by_cases ha : a = []
    · exfalso
      apply hne
      subst ha
      have h0 : normalize_address ([] : List Char) = [] := rfl
      rw [h0] at hr ⊢
      unfold ratioOk at hr
      simp only [List.length_nil, Nat.min_zero, Nat.mul_zero, ge_iff_le,
        Nat.max_zero, decide_eq_true_eq, Nat.le_zero] at hr
      exact List.length_eq_zero.mp hr
    · simp only [is_address_match]
      rw [if_neg ha, if_neg hne, if_pos (by simp [hcont, hr])]
  · intro hr
    exact match_eq_strategy3 u a hne (by simp [hr])

/-- Witness for C7: `абвгд` is strictly contained in `абвгд еж` with length
ratio 5/8 ≥ 0.5, so the containment strategy accepts. -/
theorem c7_containment_ratio_witness :
    is_address_match (mkPattern "абвгд".data) "абвгд еж".data = true :=
  (c7_containment_ratio "абвгд".data "абвгд еж".data (by decide) (by decide)).1
    (by decide)

/-! ## The retry loop, step by step -/

theorem runAttempts_zero (now : Nat) (url : List Char) (outcomes : Nat → HttpOutcome)
    (i : Nat) (st : BreakerState) (cache : Cache) :
    runAttempts now url outcomes i 0 st cache = ⟨none, st, cache, i⟩ := rfl

theorem runAttempts_nonfinal_nosucc (now : Nat) (url : List Char)
    (outcomes : Nat → HttpOutcome) (i r : Nat) (st : BreakerState) (cache : Cache)
    (h : ∀ c, fetch_url_attempt url (outcomes i) = .returns (some c) → c = []) :
    runAttempts now url outcomes i (r + 1 + 1) st cache =
      runAttempts now url outcomes (i + 1) (r + 1) st cache := by
  rw [runAttempts]
  rcases hfa : fetch_url_attempt url (outcomes i) with r0 | _
  · rcases r0 with _ | c
    · rfl
    · have hc : c = [] := h c hfa
      subst hc
      rfl
  · simp

theorem runAttempts_final_nosucc (now : Nat) (url : List Char)
    (outcomes : Nat → HttpOutcome) (i : Nat) (st : BreakerState) (cache : Cache)
    (h : ∀ c, fetch_url_attempt url (outcomes i) = .returns (some c) → c = []) :
    runAttempts now url outcomes i (0 + 1) st cache =
      ⟨none,
       if fetch_url_attempt url (outcomes i) = .raises then record_failure now st
       else st,
       cache, i + 1⟩ := by
  rw [runAttempts]
  rcases hfa : fetch_url_attempt url (outcomes i) with r0 | _
  · rcases r0 with _ | c
    · simp [runAttempts_zero]
    · have hc : c = [] := h c hfa
      subst hc
      simp [runAttempts_zero]
  · simp

theorem runAttempts_success_resets (now : Nat) (url : List Char)
    (outcomes : Nat → HttpOutcome) :
    ∀ (r i : Nat) (st : BreakerState) (cache : Cache) (c : List Char)
      (st' : BreakerState) (cache' : Cache) (k : Nat),
      runAttempts now url outcomes i r st cache = ⟨some c, st', cache', k⟩ →
      st' = ⟨0, none⟩ := by
  intro r
  induction r with
  | zero =>
    intro i st cache c st' cache' k h
    rw [runAttempts_zero] at h
    injection h with h1 h2 h3 h4
    exact Option.noConfusion h1
  | succ r ih =>
    intro i st cache c st' cache' k h
    rw [runAttempts] at h
    split at h
    · split at h
      · exact ih (i + 1) st cache c st' cache' k h
      · injection h with h1 h2 h3 h4
        rw [← h2]
        rfl
    · exact ih (i + 1) st cache c st' cache' k h
    · split at h
      · injection h with h1 h2 h3 h4
        exact Option.noConfusion h1
      · exact ih (i + 1) st cache c st' cache' k h

/-! ## Claim C5 -/

/-- C5: the circuit breaker.  (i) The third consecutive recorded failure
opens the breaker with deadline `now + 15 minutes`.  (ii) While at least
3 failures are recorded and the deadline has not passed, `async_fetch_url`
returns absent with zero attempts (no network I/O) and an unchanged state.
(iii) and (iv) the first call after the deadline resets the breaker to
`failureCount = 0`, `resetTime = none` and the fetch proceeds exactly as from
the reset state.  (v) A fetch that returns content after performing at least
one attempt (a successful network fetch) leaves the breaker reset. -/
theorem c5_circuit_breaker :
    (∀ (st : BreakerState) (now : Nat), st.failureCount = 2 →
      record_failure now st = ⟨3, some (now + breakerTimeout)⟩) ∧
    (∀ (st : BreakerState) (cache : Cache) (now t : Nat) (url : List Char)
      (outcomes : Nat → HttpOutcome),
      3 ≤ st.failureCount → st.resetTime = some t → now ≤ t →
      async_fetch_url now url outcomes st cache = ⟨none, st, cache, 0⟩) ∧
    (∀ (st : BreakerState) (now t : Nat),
      3 ≤ st.failureCount → st.resetTime = some t → t < now →
      is_circuit_breaker_open now st = (false, ⟨0, none⟩)) ∧
    (∀ (st : BreakerState) (cache : Cache) (now t : Nat) (url : List Char)
      (outcomes : Nat → HttpOutcome),
      3 ≤ st.failureCount → st.resetTime = some t → t < now →
      async_fetch_url now url outcomes st cache =
        async_fetch_url now url outcomes ⟨0, none⟩ cache) ∧
    (∀ (now : Nat) (url : List Char) (outcomes : Nat → HttpOutcome)
      (st : BreakerState) (cache : Cache) (c : List Char) (st' : BreakerState)
      (cache' : Cache) (k : Nat),
      async_fetch_url now url outcomes st cache = ⟨some c, st', cache', k⟩ →
      1 ≤ k → st' = ⟨0, none⟩) := by
  refine ⟨?_, ?_, ?_, ?_, ?_⟩
  · intro st now h
    unfold record_failure
    rw [h]
    rfl
  · intro st cache now t url outcomes h3 hrt hle
    have hopen : is_circuit_breaker_open now st = (true, st) := by
      unfold is_circuit_breaker_open
      rw [if_neg (by simp only [maxFailures]; omega), hrt]
      simp [Nat.not_lt.mpr hle]
    simp [async_fetch_url, hopen]
  · intro st now t h3 hrt hlt
    unfold is_circuit_breaker_open
    rw [if_neg (by simp only [maxFailures]; omega), hrt]
    simp [hlt]
  · intro st cache now t url outcomes h3 hrt hlt
    have hopen : is_circuit_breaker_open now st = (false, ⟨0, none⟩) := by
      unfold is_circuit_breaker_open
      rw [if_neg (by simp only [maxFailures]; omega), hrt]
      simp [hlt]
    have hopen0 : is_circuit_breaker_open now ⟨0, none⟩ = (false, ⟨0, none⟩) := by
      unfold is_circuit_breaker_open
      rw [if_pos (by simp [maxFailures])]
    rw [async_fetch_url, async_fetch_url, hopen, hopen0]
  · intro now url outcomes st cache c st' cache' k h hk
    rw [async_fetch_url] at h
    rcases hopen : is_circuit_breaker_open now st with ⟨b, st1⟩
    rw [hopen] at h
    cases b
    · rcases hvc : validCachedContent now url cache with _ | c0
      · rw [hvc] at h
        exact runAttempts_success_resets now url outcomes (maxRetries + 1) 0
          st1 cache c st' cache' k h
      · rw [hvc] at h
        injection h with h1 h2 h3 h4
        omega
    · injection h with h1 h2 h3 h4
      exact Option.noConfusion h1

set_option maxRecDepth 8000 in
/-- Witness for C5, applying each conjunct at concrete inputs: a breaker with
2 failures opened by a third at time 100 with deadline 1000; a call at time
500 short-circuited; a call at time 1001 resetting and proceeding; and a
successful one-attempt fetch leaving the breaker reset. -/
theorem c5_circuit_breaker_witness :
    record_failure 100 ⟨2, none⟩ = ⟨3, some 1000⟩ ∧
    async_fetch_url 500 urlX outcomesDenied ⟨3, some 1000⟩ [] =
      ⟨none, ⟨3, some 1000⟩, [], 0⟩ ∧
    is_circuit_breaker_open 1001 ⟨3, some 1000⟩ = (false, ⟨0, none⟩) ∧
    async_fetch_url 1001 urlX outcomesDenied ⟨3, some 1000⟩ [] =
      async_fetch_url 1001 urlX outcomesDenied ⟨0, none⟩ [] ∧
    (⟨0, none⟩ : BreakerState) = ⟨0, none⟩ :=
  ⟨c5_circuit_breaker.1 ⟨2, none⟩ 100 rfl,
   c5_circuit_breaker.2.1 ⟨3, some 1000⟩ [] 500 1000 urlX outcomesDenied
     (by decide) rfl (by decide),
   c5_circuit_breaker.2.2.1 ⟨3, some 1000⟩ 1001 1000 (by decide) rfl (by decide),
   c5_circuit_breaker.2.2.2.1 ⟨3, some 1000⟩ [] 1001 1000 urlX outcomesDenied
     (by decide) rfl (by decide),
   c5_circuit_breaker.2.2.2.2 0 urlX outcomesOk ⟨2, some 5000⟩ [] permBody
     ⟨0, none⟩ [⟨urlX, permBody, 0⟩] 1 (by decide) (by decide)⟩

/-! ## Claim C2 -/

set_option maxRecDepth 8000 in
/-- C2 counterexample: with a first attempt answered by HTTP 404 and a second
attempt succeeding, `async_fetch_url` performs a second attempt and returns
its content — a permanent per-attempt failure neither ends the call nor makes
it return absent. -/
theorem c2_counterexample :
    (async_fetch_url 0 urlX outcomesC2 ⟨0, none⟩ []).content = some permBody ∧
    (async_fetch_url 0 urlX outcomesC2 ⟨0, none⟩ []).attempts = 2 := by
  constructor <;> decide

/-- C2 as amended: a permanent-failure attempt (HTTP 404/403, invalid URL or
invalid content, i.e. `_fetch_url_attempt` returning `None`) is *not*
terminal: the loop immediately proceeds with the remaining attempts, and only
if every attempt fails does the call return absent. -/
theorem c2_amended_no_short_circuit (now : Nat) (url : List Char)
    (outcomes : Nat → HttpOutcome) (st st1 : BreakerState) (cache : Cache)
    (hopen : is_circuit_breaker_open now st = (false, st1))
    (hmiss : validCachedContent now url cache = none)
    (hperm : fetch_url_attempt url (outcomes 0) = .returns none) :
    async_fetch_url now url outcomes st cache =
      runAttempts now url outcomes 1 maxRetries st1 cache ∧
    ((∀ j, j < maxRetries + 1 → fetch_url_attempt url (outcomes j) = .returns none) →
      async_fetch_url now url outcomes st cache = ⟨none, st1, cache, 3⟩) := by
  have hstep : async_fetch_url now url outcomes st cache =
      runAttempts now url outcomes 0 (maxRetries + 1) st1 cache := by
    rw [async_fetch_url, hopen, hmiss]
  have h0 : ∀ c, fetch_url_attempt url (outcomes 0) = .returns (some c) → c = [] := by
    intro c hc
    rw [hperm] at hc
    exact AttemptResult.noConfusion hc fun h => Option.noConfusion h
  constructor
  · rw [hstep]
    have e : maxRetries + 1 = 1 + 1 + 1 := rfl
    rw [e, runAttempts_nonfinal_nosucc now url outcomes 0 1 st1 cache h0]
    rfl
  · intro hall
    rw [hstep]
    have e : maxRetries + 1 = 0 + 1 + 1 + 1 := rfl
    rw [e]
    have h1 : ∀ c, fetch_url_attempt url (outcomes 1) = .returns (some c) → c = [] := by
      intro c hc
      rw [hall 1 (by decide)] at hc
      exact AttemptResult.noConfusion hc fun h => Option.noConfusion h
    have h2 : ∀ c, fetch_url_attempt url (outcomes 2) = .returns (some c) → c = [] := by
      intro c hc
      rw [hall 2 (by decide)] at hc
      exact AttemptResult.noConfusion hc fun h => Option.noConfusion h
    rw [runAttempts_nonfinal_nosucc now url outcomes 0 (0 + 1) st1 cache h0,
      runAttempts_nonfinal_nosucc now url outcomes 1 0 st1 cache h1,
      runAttempts_final_nosucc now url outcomes 2 st1 cache h2,
      if_neg (by rw [hall 2 (by decide)]; exact fun h => AttemptResult.noConfusion h)]

/-- Witness for C2's amended statement, at the concrete all-404 scenario. -/
theorem c2_amended_no_short_circuit_witness :
    async_fetch_url 0 urlX outcomesDenied ⟨0, none⟩ [] =
      runAttempts 0 urlX outcomesDenied 1 maxRetries ⟨0, none⟩ [] ∧
    async_fetch_url 0 urlX outcomesDenied ⟨0, none⟩ [] = ⟨none, ⟨0, none⟩, [], 3⟩ := by
  have h := c2_amended_no_short_circuit 0 urlX outcomesDenied ⟨0, none⟩ ⟨0, none⟩ []
    (by decide) (by decide) rfl
  exact ⟨h.1, h.2 (fun j _ => rfl)⟩

/-! ## Claim C3 -/

/-- C3 counterexample: when all three attempts end in a permanent failure
(HTTP 404), the call returns absent with its attempts exhausted yet the
breaker's `failureCount` is *not* incremented: it stays 0. -/
theorem c3_counterexample :
    (async_fetch_url 0 urlX outcomesDenied ⟨0, none⟩ []).content = none ∧
    (async_fetch_url 0 urlX outcomesDenied ⟨0, none⟩ []).attempts = 3 ∧
    (async_fetch_url 0 urlX outcomesDenied ⟨0, none⟩ []).breaker.failureCount = 0 := by
  refine ⟨?_, ?_, ?_⟩ <;> decide

/-- C3 as amended: a call that exhausts its attempts without success records
exactly one failure if and only if the *final* attempt raised (timeout,
connection error, retryable status); when the final attempt instead returned
`None` (404/403 or invalid content), no failure is recorded at all. -/
theorem c3_amended_failure_recording (now : Nat) (url : List Char)
    (outcomes : Nat → HttpOutcome) (st st1 : BreakerState) (cache : Cache)
    (hopen : is_circuit_breaker_open now st = (false, st1))
    (hmiss : validCachedContent now url cache = none)
    (hns : ∀ j, j < maxRetries + 1 →
      ∀ c, fetch_url_attempt url (outcomes j) = .returns (some c) → c = []) :
    async_fetch_url now url outcomes st cache =
      ⟨none,
       if fetch_url_attempt url (outcomes maxRetries) = .raises
       then record_failure now st1 else st1,
       cache, 3⟩ := by
  have hstep : async_fetch_url now url outcomes st cache =
      runAttempts now url outcomes 0 (maxRetries + 1) st1 cache := by
    rw [async_fetch_url, hopen, hmiss]
  rw [hstep]
  have e : maxRetries + 1 = 0 + 1 + 1 + 1 := rfl
  rw [e,
    runAttempts_nonfinal_nosucc now url outcomes 0 (0 + 1) st1 cache
      (hns 0 (by decide)),
    runAttempts_nonfinal_nosucc now url outcomes 1 0 st1 cache (hns 1 (by decide)),
    runAttempts_final_nosucc now url outcomes 2 st1 cache (hns 2 (by decide))]
  rfl

/-- Witness for C3's amended statement: all-404 attempts record no failure
(the final attempt did not raise, so the breaker is returned untouched). -/
theorem c3_amended_failure_recording_witness :
    async_fetch_url 0 urlX outcomesDenied ⟨0, none⟩ [] =
      ⟨none,
       if fetch_url_attempt urlX (outcomesDenied maxRetries) = .raises
       then record_failure 0 ⟨0, none⟩ else ⟨0, none⟩,
       [], 3⟩ :=
  c3_amended_failure_recording 0 urlX outcomesDenied ⟨0, none⟩ ⟨0, none⟩ []
    (by decide) (by decide)
    (fun j _ c hc => by
      rw [show fetch_url_attempt urlX (outcomesDenied j) = .returns none from rfl] at hc
      exact AttemptResult.noConfusion hc fun h => Option.noConfusion h)

/-! ## Aggregator helper lemmas -/

theorem async_update_data_run (pats : List AddressPattern)
    (crawlers : List (List Char)) (st : CoordState) (t : Nat)
    (results : List CrawlResult) (hc : crawlers ≠ [])
    (hrl : crawlers.any (fun p => t - getTime st.lastRequestTimes p < 60) = false) :
    async_update_data pats crawlers st t results =
      ({ matched := find_matches pats (collectValid results),
         all_interruptions := collectValid results },
       { lastRequestTimes := setTimes st.lastRequestTimes crawlers t,
         matchedAddresses := (find_matches pats (collectValid results)).take 50,
         allInterruptions := (collectValid results).take 200 }) := by
  unfold async_update_data
  rw [if_neg hc, if_neg (by simp [hrl])]

theorem async_update_data_rate_limited (pats : List AddressPattern)
    (crawlers : List (List Char)) (st : CoordState) (t : Nat)
    (results : List CrawlResult) (hc : crawlers ≠ [])
    (hrl : crawlers.any (fun p => t - getTime st.lastRequestTimes p < 60) = true) :
    async_update_data pats crawlers st t results =
      ({ matched := st.matchedAddresses,
         all_interruptions := st.allInterruptions }, st) := by
  unfold async_update_data
  rw [if_neg hc, if_pos hrl]

theorem find_matches_replicate (pats : List AddressPattern) (i : Interruption)
    (m : MatchResult) (n : Nat) (h : matchInterruption pats i = some m) :
    find_matches pats (List.replicate n i) = List.replicate n m := by
  induction n with
  | zero => rfl
  | succ n ih =>
    rw [List.replicate_succ, List.replicate_succ]
    unfold find_matches at ih ⊢
    rw [List.filterMap_cons, h, ih]

theorem find_replaceTime (q : List Char) (t : Nat) :
    ∀ lt : List (List Char × Nat), lt.any (fun e => decide (e.1 = q)) = true →
      (lt.map (fun e => if e.1 = q then (q, t) else e)).find?
        (fun e => decide (e.1 = q)) = some (q, t) := by
  intro lt
  induction lt with
  | nil => intro h; simp at h
  | cons e es ih =>
    intro h
    by_cases he : e.1 = q
    · simp [List.find?_cons, he]
    · have h' : es.any (fun e => decide (e.1 = q)) = true := by
        simpa [List.any_cons, he] using h
      simpa [List.find?_cons, he] using ih h'

theorem getTime_setTime_self (lt : List (List Char × Nat)) (q : List Char) (t : Nat) :
    getTime (setTime lt q t) q = t := by
  unfold setTime
  split
  · rename_i h
    unfold getTime
    rw [find_replaceTime q t lt h]
    rfl
  · rename_i h
    unfold getTime
    induction lt with
    | nil => simp [List.find?_cons]
    | cons e es ih =>
      have he : ¬ e.1 = q := by
        intro hq
        exact h (by simp [List.any_cons, hq])
      have h' : ¬ es.any (fun e => decide (e.1 = q)) = true := by
        intro hq
        exact h (by simp [List.any_cons, hq])
      simpa [List.cons_append, List.find?_cons, he] using ih h'

theorem find_snd_replaceTime (q : List Char) (t : Nat) (p : List Char)
    (hne : p ≠ q) :
    ∀ lt : List (List Char × Nat),
      Option.map (fun x : List Char × Nat => x.2)
        ((lt.map (fun e => if e.1 = q then (q, t) else e)).find?
          (fun e => decide (e.1 = p))) =
      Option.map (fun x : List Char × Nat => x.2)
        (lt.find? (fun e => decide (e.1 = p))) := by
  intro lt
  induction lt with
  | nil => rfl
  | cons e es ih =>
    rw [List.map_cons]
    by_cases he : e.1 = q
    · rw [if_pos he]
      rw [List.find?_cons_of_neg _ (by simp [Ne.symm hne]),
        List.find?_cons_of_neg _ (by simp [he]; exact Ne.symm hne)]
      exact ih
    · rw [if_neg he]
      by_cases hep : e.1 = p
      · rw [List.find?_cons_of_pos _ (by simp [hep]),
          List.find?_cons_of_pos _ (by simp [hep])]
      · rw [List.find?_cons_of_neg _ (by simp [hep]),
          List.find?_cons_of_neg _ (by simp [hep])]
        exact ih

theorem find_appendTime (q : List Char) (t : Nat) (p : List Char) (hne : p ≠ q) :
    ∀ lt : List (List Char × Nat),
      (lt ++ [(q, t)]).find? (fun e => decide (e.1 = p)) =
        lt.find? (fun e => decide (e.1 = p)) := by
  intro lt
  induction lt with
  | nil =>
    rw [List.nil_append, List.find?_cons_of_neg _ (by simp [Ne.symm hne])]
  | cons e es ih =>
    rw [List.cons_append]
    by_cases hep : e.1 = p
    · rw [List.find?_cons_of_pos _ (by simp [hep]),
        List.find?_cons_of_pos _ (by simp [hep])]
    · rw [List.find?_cons_of_neg _ (by simp [hep]),
        List.find?_cons_of_neg _ (by simp [hep])]
      exact ih

theorem getTime_setTime_other (lt : List (List Char × Nat)) (q : List Char)
    (t : Nat) (p : List Char) (hne : p ≠ q) :
    getTime (setTime lt q t) p = getTime lt p := by
  unfold setTime
  split
  · unfold getTime
    exact congrArg (fun o => Option.getD o 0) (find_snd_replaceTime q t p hne lt)
  · unfold getTime
    rw [find_appendTime q t p hne lt]

theorem getTime_setTimes (t : Nat) :
    ∀ (ps : List (List Char)) (lt : List (List Char × Nat)) (p : List Char),
      getTime (setTimes lt ps t) p = if p ∈ ps then t else getTime lt p := by
  intro ps
  induction ps with
  | nil => intro lt p; simp [setTimes]
  | cons q qs ih =>
    intro lt p
    have hfold : setTimes lt (q :: qs) t = setTimes (setTime lt q t) qs t := by
      simp [setTimes]
    rw [hfold, ih (setTime lt q t) p]
    by_cases hin : p ∈ qs
    · simp [hin]
    · by_cases hpq : p = q
      · subst hpq
        simp [hin, getTime_setTime_self]
      · simp [hin, hpq, getTime_setTime_other lt q t p hpq]

/-! ## Claim C4 -/

/-- C4 counterexample: a completed cycle over 201 valid records, each matching
the single configured address, returns 201 entries in `matched` and 201 in
`all_interruptions` to the caller — the 50/200 caps are applied only to the
stored copies, not to the returned result. -/
theorem c4_counterexample :
    (async_update_data patsB ["ERP".data] st0 100
      [.records (List.replicate 201 recB)]).1.matched.length = 201 ∧
    (async_update_data patsB ["ERP".data] st0 100
      [.records (List.replicate 201 recB)]).1.all_interruptions.length = 201 := by
  have hcv : collectValid [.records (List.replicate 201 recB)] =
      List.replicate 201 recB := by
    unfold collectValid
    simp only [List.foldl_cons, List.foldl_nil, List.nil_append]
    rw [List.filter_eq_self.mpr]
    intro a ha
    rw [List.eq_of_mem_replicate ha]
    decide
  have hfm : find_matches patsB (List.replicate 201 recB) =
      List.replicate 201 mB :=
    find_matches_replicate patsB recB mB 201 (by decide)
  have hrun := async_update_data_run patsB ["ERP".data] st0 100
    [.records (List.replicate 201 recB)] (by decide) (by decide)
  rw [hrun]
  constructor
  · show (find_matches patsB
      (collectValid [.records (List.replicate 201 recB)])).length = 201
    rw [hcv, hfm, List.length_replicate]
  · show (collectValid [.records (List.replicate 201 recB)]).length = 201
    rw [hcv, List.length_replicate]

/-- C4 as amended: the 50/200 caps apply to the coordinator's *stored* copies
(`matched_addresses`, `all_interruptions`, which later rate-limited cycles
serve): they are the 50- and 200-prefixes of the returned lists, hence within the
caps; the value returned by the completed cycle itself is unbounded. -/
theorem c4_amended_caps_on_stored_state (pats : List AddressPattern)
    (crawlers : List (List Char)) (st : CoordState) (t : Nat)
    (results : List CrawlResult) (hc : crawlers ≠ [])
    (hrl : crawlers.any (fun p => t - getTime st.lastRequestTimes p < 60) = false) :
    (async_update_data pats crawlers st t results).2.matchedAddresses =
      (async_update_data pats crawlers st t results).1.matched.take 50 ∧
    (async_update_data pats crawlers st t results).2.allInterruptions =
      (async_update_data pats crawlers st t results).1.all_interruptions.take 200 ∧
    (async_update_data pats crawlers st t results).2.matchedAddresses.length ≤ 50 ∧
    (async_update_data pats crawlers st t results).2.allInterruptions.length ≤ 200 := by
  rw [async_update_data_run pats crawlers st t results hc hrl]
  refine ⟨rfl, rfl, ?_, ?_⟩
  · show ((find_matches pats (collectValid results)).take 50).length ≤ 50
    rw [List.length_take]
    exact Nat.min_le_left _ _
  · show ((collectValid results).take 200).length ≤ 200
    rw [List.length_take]
    exact Nat.min_le_left _ _

/-- Witness for C4's amended statement at a concrete completed cycle. -/
theorem c4_amended_caps_on_stored_state_witness :
    (async_update_data patsB ["ERP".data] st0 100
      [.records [recB]]).2.matchedAddresses =
      (async_update_data patsB ["ERP".data] st0 100
        [.records [recB]]).1.matched.take 50 ∧
    (async_update_data patsB ["ERP".data] st0 100
      [.records [recB]]).2.allInterruptions =
      (async_update_data patsB ["ERP".data] st0 100
        [.records [recB]]).1.all_interruptions.take 200 ∧
    (async_update_data patsB ["ERP".data] st0 100
      [.records [recB]]).2.matchedAddresses.length ≤ 50 ∧
    (async_update_data patsB ["ERP".data] st0 100
      [.records [recB]]).2.allInterruptions.length ≤ 200 :=
  c4_amended_caps_on_stored_state patsB ["ERP".data] st0 100 [.records [recB]]
    (by decide) (by decide)

/-! ## Claim C9 -/

/-- C9 counterexample: a completed cycle with 51 matches returns 51 entries,
but a second refresh 30 seconds later returns the *stored, truncated* copy of
50 entries — the two calls' results are not identical. -/
theorem c9_counterexample :
    (async_update_data patsB ["ERP".data] st0 100
      [.records (List.replicate 51 recB)]).1.matched.length = 51 ∧
    (async_update_data patsB ["ERP".data] st1C9 130 []).1.matched.length = 50 := by
  have hcv : collectValid [.records (List.replicate 51 recB)] =
      List.replicate 51 recB := by
    unfold collectValid
    simp only [List.foldl_cons, List.foldl_nil, List.nil_append]
    rw [List.filter_eq_self.mpr]
    intro a ha
    rw [List.eq_of_mem_replicate ha]
    decide
  have hfm : find_matches patsB (List.replicate 51 recB) = List.replicate 51 mB :=
    find_matches_replicate patsB recB mB 51 (by decide)
  have hrun := async_update_data_run patsB ["ERP".data] st0 100
    [.records (List.replicate 51 recB)] (by decide) (by decide)
  have hst1 : st1C9.matchedAddresses = List.replicate 50 mB := by
    show (async_update_data patsB ["ERP".data] st0 100
      [.records (List.replicate 51 recB)]).2.matchedAddresses = _
    rw [hrun]
    show (find_matches patsB (collectValid
      [.records (List.replicate 51 recB)])).take 50 = _
    rw [hcv, hfm, List.take_replicate]
    norm_num
  have hlim : async_update_data patsB ["ERP".data] st1C9 130 [] =
      ({ matched := st1C9.matchedAddresses,
         all_interruptions := st1C9.allInterruptions }, st1C9) := by
    refine async_update_data_rate_limited patsB ["ERP".data] st1C9 130 []
      (by decide) ?_
    have hgt : getTime st1C9.lastRequestTimes "ERP".data = 100 := by
      show getTime (async_update_data patsB ["ERP".data] st0 100
        [.records (List.replicate 51 recB)]).2.lastRequestTimes "ERP".data = 100
      rw [hrun]
      show getTime (setTimes st0.lastRequestTimes ["ERP".data] 100) "ERP".data = 100
      rw [getTime_setTimes 100 ["ERP".data] st0.lastRequestTimes "ERP".data]
      simp
    simp [List.any_cons, hgt]
  constructor
  · rw [hrun]
    show (find_matches patsB (collectValid
      [.records (List.replicate 51 recB)])).length = 51
    rw [hcv, hfm, List.length_replicate]
  · rw [hlim]
    show st1C9.matchedAddresses.length = 50
    rw [hst1, List.length_replicate]

/-- C9 as amended: a rate-limited cycle performs no provider requests and
returns the coordinator's *stored* (truncated to 50 and 200) copies of the previous
cycle's results with the state unchanged; consequently two refresh calls under
60 seconds apart return identical results provided the first call produced at
most 50 matches and at most 200 interruptions. -/
theorem c9_amended_rate_limited_cycle :
    (∀ (pats : List AddressPattern) (crawlers : List (List Char))
      (st : CoordState) (t : Nat) (results : List CrawlResult),
      crawlers ≠ [] →
      crawlers.any (fun p => t - getTime st.lastRequestTimes p < 60) = true →
      async_update_data pats crawlers st t results =
        ({ matched := st.matchedAddresses,
           all_interruptions := st.allInterruptions }, st)) ∧
    (∀ (pats : List AddressPattern) (crawlers : List (List Char))
      (st : CoordState) (t1 : Nat) (res1 : List CrawlResult) (t2 : Nat)
      (res2 : List CrawlResult),
      crawlers ≠ [] →
      crawlers.any (fun p => t1 - getTime st.lastRequestTimes p < 60) = false →
      t2 - t1 < 60 →
      (async_update_data pats crawlers st t1 res1).1.matched.length ≤ 50 →
      (async_update_data pats crawlers st t1 res1).1.all_interruptions.length ≤ 200 →
      async_update_data pats crawlers
          (async_update_data pats crawlers st t1 res1).2 t2 res2 =
        ((async_update_data pats crawlers st t1 res1).1,
         (async_update_data pats crawlers st t1 res1).2)) := by
  constructor
  · intro pats crawlers st t results hc hrl
    exact async_update_data_rate_limited pats crawlers st t results hc hrl
  · intro pats crawlers st t1 res1 t2 res2 hc hrl hlt hm ha
    rw [async_update_data_run pats crawlers st t1 res1 hc hrl] at hm ha ⊢
    obtain ⟨q, hq⟩ := List.exists_mem_of_ne_nil crawlers hc
    have hany : crawlers.any (fun p =>
        t2 - getTime (setTimes st.lastRequestTimes crawlers t1) p < 60) = true := by
      rw [List.any_eq_true]
      refine ⟨q, hq, ?_⟩
      rw [getTime_setTimes t1 crawlers st.lastRequestTimes q, if_pos hq]
      simpa using hlt
    rw [async_update_data_rate_limited pats crawlers _ t2 res2 hc hany]
    have hm' : (find_matches pats (collectValid res1)).length ≤ 50 := hm
    have ha' : (collectValid res1).length ≤ 200 := ha
    simp [List.take_of_length_le hm', List.take_of_length_le ha']

/-- Witness for C9's amended statement: a rate-limited call at a concrete
state, and a concrete pair of calls 30 seconds apart with one match. -/
theorem c9_amended_rate_limited_cycle_witness :
    async_update_data patsB ["ERP".data] ⟨[("ERP".data, 90)], [mB], [recB]⟩ 120 [] =
      ({ matched := [mB], all_interruptions := [recB] },
       ⟨[("ERP".data, 90)], [mB], [recB]⟩) ∧
    async_update_data patsB ["ERP".data]
        (async_update_data patsB ["ERP".data] st0 100 [.records [recB]]).2 130 [] =
      ((async_update_data patsB ["ERP".data] st0 100 [.records [recB]]).1,
       (async_update_data patsB ["ERP".data] st0 100 [.records [recB]]).2) :=
  ⟨c9_amended_rate_limited_cycle.1 patsB ["ERP".data]
     ⟨[("ERP".data, 90)], [mB], [recB]⟩ 120 [] (by decide) (by decide),
   c9_amended_rate_limited_cycle.2 patsB ["ERP".data] st0 100 [.records [recB]]
     130 [] (by decide) (by decide) (by decide) (by decide) (by decide)⟩

/-! ## Claim C1 -/

/-- C1 counterexample: running a refresh for configured address `ул. Тракия 5`
over the validated record announcing `улица Тракия №5, блок 2` yields *no*
`MatchResult` at all (the claim asserts exactly one). -/
theorem c1_counterexample :
    (async_update_data patsTrakia ["ERP".data] st0 100
      [.records [recTrakia]]).1.matched = [] := by
  decide

/-- C1 as amended: that refresh yields zero `MatchResult`s: the pattern
normalizes to `улица. тракия 5` (the dot survives expansion), the record
address to `улица тракия №5, блок 2`; the forms are unequal, neither contains
the other, and they share only the single significant word `тракия` of the
required two, so `_is_address_match` is false. -/
theorem c1_amended_no_match :
    (mkPattern "ул. Тракия 5".data).normalized = "улица. тракия 5".data ∧
    normalize_address "улица Тракия №5, блок 2".data =
      "улица тракия №5, блок 2".data ∧
    (overlapWords (mkPattern "ул. Тракия 5".data).words
      (extract_significant_words
        (normalize_address "улица Тракия №5, блок 2".data))).length = 1 ∧
    is_address_match (mkPattern "ул. Тракия 5".data)
      "улица Тракия №5, блок 2".data = false ∧
    (async_update_data patsTrakia ["ERP".data] st0 100
      [.records [recTrakia]]).1.matched.length = 0 := by
  refine ⟨?_, ?_, ?_, ?_, ?_⟩ <;> decide

/-! ## Claim C8: character-level lemmas -/

theorem char_ofNat_toNat (n : Nat) (h : n < 55296) : (Char.ofNat n).toNat = n := by
  have hv : n.isValidChar := Or.inl h
  unfold Char.ofNat
  rw [dif_pos hv]
  unfold Char.ofNatAux Char.toNat
  simp [UInt32.toNat, UInt32.ofNatCore]

theorem toLowerChar_fix {d : Char}
    (h1 : ¬(65 ≤ d.toNat ∧ d.toNat ≤ 90))
    (h2 : ¬(1040 ≤ d.toNat ∧ d.toNat ≤ 1071))
    (h3 : d.toNat ≠ 1025) : toLowerChar d = d := by
  unfold toLowerChar
  rw [if_neg (by simpa using h1), if_neg (by simpa using h2), if_neg h3]

theorem toLowerChar_not_upper (c : Char) :
    ¬(65 ≤ (toLowerChar c).toNat ∧ (toLowerChar c).toNat ≤ 90) ∧
    ¬(1040 ≤ (toLowerChar c).toNat ∧ (toLowerChar c).toNat ≤ 1071) ∧
    (toLowerChar c).toNat ≠ 1025 := by
  unfold toLowerChar
  split_ifs with hA hB hC
  · simp only [Bool.and_eq_true, decide_eq_true_eq] at hA
    rw [char_ofNat_toNat _ (by omega)]
    omega
  · simp only [Bool.and_eq_true, decide_eq_true_eq] at hB
    rw [char_ofNat_toNat _ (by omega)]
    omega
  · rw [char_ofNat_toNat _ (by omega)]
    omega
  · simp only [Bool.and_eq_true, decide_eq_true_eq, not_and] at hA hB
    refine ⟨by omega, by omega, hC⟩

theorem toLowerChar_idem (c : Char) : toLowerChar (toLowerChar c) = toLowerChar c :=
  toLowerChar_fix (toLowerChar_not_upper c).1 (toLowerChar_not_upper c).2.1
    (toLowerChar_not_upper c).2.2

theorem word_not_space {c : Char} (h : isSpaceChar c = true) : isWordChar c = false := by
  unfold isSpaceChar at h
  simp only [Bool.or_eq_true, decide_eq_true_eq] at h
  rcases h with ((((h | h) | h) | h) | h) | h <;> subst h <;> decide

theorem lowerStr_eq_self {y : List Char} (h : LowerStable y) : lowerStr y = y := by
  induction y with
  | nil => rfl
  | cons c cs ih =>
    unfold lowerStr at ih ⊢
    rw [List.map_cons, h c (by simp),
      ih (fun d hd => h d (List.mem_cons_of_mem c hd))]

/-! ## Claim C8: strip lemmas -/

theorem mem_of_mem_dropWhile (p : Char → Bool) :
    ∀ l : List Char, ∀ c, c ∈ l.dropWhile p → c ∈ l := by
  intro l
  induction l with
  | nil => intro c hc; simp [List.dropWhile] at hc
  | cons d ds ih =>
    intro c hc
    rw [List.dropWhile_cons] at hc
    by_cases hd : p d
    · rw [if_pos hd] at hc
      exact List.mem_cons_of_mem d (ih c hc)
    · rw [if_neg hd] at hc
      exact hc

theorem head?_dropWhile (p : Char → Bool) :
    ∀ l : List Char, ∀ c ∈ (l.dropWhile p).head?, p c = false := by
  intro l
  induction l with
  | nil => intro c hc; simp [List.dropWhile] at hc
  | cons d ds ih =>
    intro c hc
    rw [List.dropWhile_cons] at hc
    by_cases hd : p d
    · rw [if_pos hd] at hc
      exact ih c hc
    · rw [if_neg hd] at hc
      simp only [List.head?_cons, Option.mem_def, Option.some.injEq] at hc
      subst hc
      exact Bool.eq_false_iff.mpr hd

theorem getLast?_dropWhile (p : Char → Bool) :
    ∀ l : List Char, l.dropWhile p = [] ∨ (l.dropWhile p).getLast? = l.getLast? := by
  intro l
  induction l with
  | nil => exact Or.inl rfl
  | cons d ds ih =>
    rw [List.dropWhile_cons]
    by_cases hd : p d
    · rw [if_pos hd]
      rcases ih with h | h
      · exact Or.inl h
      · cases ds with
        | nil => exact Or.inl rfl
        | cons e es =>
          right
          rw [h, List.getLast?_cons_cons]
    · rw [if_neg hd]
      exact Or.inr rfl

theorem dropWhile_eq_self_of_headNS {l : List Char}
    (h : ∀ c ∈ l.head?, isSpaceChar c = false) :
    l.dropWhile isSpaceChar = l := by
  rcases l with _ | ⟨c, cs⟩
  · rfl
  · rw [List.dropWhile_cons, if_neg (by simp [h c (by simp)])]

theorem stripStr_headNS (s : List Char) : HeadNS (stripStr s) := by
  unfold stripStr HeadNS
  intro c hc
  rw [List.head?_reverse] at hc
  rcases getLast?_dropWhile isSpaceChar (s.dropWhile isSpaceChar).reverse with h | h
  · rw [h] at hc
    simp at hc
  · rw [h, List.getLast?_reverse] at hc
    exact head?_dropWhile isSpaceChar s c hc

theorem stripStr_lastNS (s : List Char) : LastNS (stripStr s) := by
  unfold stripStr LastNS
  intro c hc
  rw [List.getLast?_reverse] at hc
  exact head?_dropWhile isSpaceChar (s.dropWhile isSpaceChar).reverse c hc

theorem mem_stripStr {s : List Char} : ∀ d ∈ stripStr s, d ∈ s := by
  intro d hd
  unfold stripStr at hd
  rw [List.mem_reverse] at hd
  have h1 := mem_of_mem_dropWhile isSpaceChar _ d hd
  rw [List.mem_reverse] at h1
  exact mem_of_mem_dropWhile isSpaceChar s d h1

theorem stripStr_eq_self {s : List Char} (h1 : HeadNS s) (h2 : LastNS s) :
    stripStr s = s := by
  unfold stripStr
  rw [dropWhile_eq_self_of_headNS h1]
  have hrev : ∀ c ∈ s.reverse.head?, isSpaceChar c = false := by
    intro c hc
    rw [List.head?_reverse] at hc
    exact h2 c hc
  rw [dropWhile_eq_self_of_headNS hrev, List.reverse_reverse]

/-! ## Claim C8: collapse lemmas -/

theorem mem_collapseWsAux :
    ∀ (s : List Char) (b : Bool) (c : Char), c ∈ collapseWsAux s b →
      (c ∈ s ∧ isSpaceChar c = false) ∨ c = ' ' := by
  intro s
  induction s with
  | nil => intro b c hc; simp [collapseWsAux] at hc
  | cons d ds ih =>
    intro b c hc
    rw [collapseWsAux] at hc
    by_cases hd : isSpaceChar d
    · rw [if_pos hd] at hc
      by_cases hb : b
      · subst hb
        rw [if_pos rfl] at hc
        rcases ih true c hc with ⟨h1, h2⟩ | h
        · exact Or.inl ⟨List.mem_cons_of_mem d h1, h2⟩
        · exact Or.inr h
      · rw [if_neg hb] at hc
        rcases List.mem_cons.mp hc with h | h
        · exact Or.inr h
        · rcases ih true c h with ⟨h1, h2⟩ | h'
          · exact Or.inl ⟨List.mem_cons_of_mem d h1, h2⟩
          · exact Or.inr h'
    · rw [if_neg hd] at hc
      rcases List.mem_cons.mp hc with h | h
      · subst h
        exact Or.inl ⟨List.mem_cons_self _ _, Bool.eq_false_iff.mpr hd⟩
      · rcases ih false c h with ⟨h1, h2⟩ | h'
        · exact Or.inl ⟨List.mem_cons_of_mem d h1, h2⟩
        · exact Or.inr h'

theorem collapseWsAux_spacesPlain (s : List Char) (b : Bool) :
    SpacesPlain (collapseWsAux s b) := by
  intro c hc hsp
  rcases mem_collapseWsAux s b c hc with ⟨-, h2⟩ | h
  · rw [hsp] at h2
    exact absurd h2 (by simp)
  · exact h

theorem collapseWsAux_headNS_true :
    ∀ s : List Char, HeadNS (collapseWsAux s true) := by
  intro s
  induction s with
  | nil => intro c hc; simp [collapseWsAux] at hc
  | cons d ds ih =>
    intro c hc
    rw [collapseWsAux] at hc
    by_cases hd : isSpaceChar d
    · rw [if_pos hd, if_pos rfl] at hc
      exact ih c hc
    · rw [if_neg hd] at hc
      simp only [List.head?_cons, Option.mem_def, Option.some.injEq] at hc
      subst hc
      exact Bool.eq_false_iff.mpr hd

theorem collapseWsAux_chain :
    ∀ (s : List Char) (b : Bool), NoWsPair (collapseWsAux s b) := by
  intro s
  induction s with
  | nil => intro b; exact List.chain'_nil
  | cons d ds ih =>
    intro b
    unfold NoWsPair at ih ⊢
    rw [collapseWsAux]
    by_cases hd : isSpaceChar d
    · rw [if_pos hd]
      by_cases hb : b
      · subst hb
        rw [if_pos rfl]
        exact ih true
      · rw [if_neg hb, List.chain'_cons']
        refine ⟨?_, ih true⟩
        intro y hy
        rintro ⟨-, hy2⟩
        rw [collapseWsAux_headNS_true ds y hy] at hy2
        exact Bool.false_ne_true hy2
    · rw [if_neg hd, List.chain'_cons']
      refine ⟨?_, ih false⟩
      intro y hy
      rintro ⟨hd2, -⟩
      rw [hd2] at hd
      exact hd rfl

theorem collapseWsAux_headNS (s : List Char) (h : HeadNS s) :
    HeadNS (collapseWsAux s false) := by
  rcases s with _ | ⟨d, ds⟩
  · intro c hc; simp [collapseWsAux] at hc
  · have hd : isSpaceChar d = false := h d (by simp)
    rw [collapseWsAux, if_neg (by simp [hd])]
    intro c hc
    simp only [List.head?_cons, Option.mem_def, Option.some.injEq] at hc
    subst hc
    exact hd

theorem collapseWsAux_empty_all_space :
    ∀ s : List Char, collapseWsAux s true = [] → ∀ c ∈ s, isSpaceChar c = true := by
  intro s
  induction s with
  | nil => intro _ c hc; simp at hc
  | cons d ds ih =>
    intro h c hc
    rw [collapseWsAux] at h
    by_cases hd : isSpaceChar d
    · rw [if_pos hd, if_pos rfl] at h
      rcases List.mem_cons.mp hc with h1 | h1
      · subst h1; exact hd
      · exact ih h c h1
    · rw [if_neg hd] at h
      exact absurd h (by simp)

theorem collapseWsAux_ne_nil_of_head :
    ∀ (d : Char) (ds : List Char) (b : Bool),
      isSpaceChar d = false ∨ b = false →
      collapseWsAux (d :: ds) b ≠ [] := by
  intro d ds b hd
  rw [collapseWsAux]
  by_cases hsp : isSpaceChar d
  · rcases hd with hd | hd
    · rw [hd] at hsp; exact absurd hsp (by simp)
    · subst hd
      rw [if_pos hsp, if_neg (by simp)]
      simp
  · rw [if_neg hsp]
    simp

theorem getLast?_cons_of_ne_nil {x : Char} {l : List Char} (h : l ≠ []) :
    (x :: l).getLast? = l.getLast? := by
  rcases l with _ | ⟨y, ys⟩
  · exact absurd rfl h
  · exact List.getLast?_cons_cons

theorem collapseWsAux_lastNS :
    ∀ (s : List Char) (b : Bool), LastNS s → LastNS (collapseWsAux s b) := by
  intro s
  induction s with
  | nil => intro b _ c hc; simp [collapseWsAux] at hc
  | cons d ds ih =>
    intro b hlast
    have hds_last : ds ≠ [] → LastNS ds := by
      intro hne x hx
      apply hlast
      rw [getLast?_cons_of_ne_nil hne]
      exact hx
    rw [collapseWsAux]
    by_cases hd : isSpaceChar d
    · rw [if_pos hd]
      have hds_ne : ds ≠ [] := by
        intro hnil
        subst hnil
        have h1 := hlast d (by simp)
        rw [hd] at h1
        exact absurd h1 (by simp)
      by_cases hb : b
      · subst hb
        rw [if_pos rfl]
        exact ih true (hds_last hds_ne)
      · rw [if_neg hb]
        intro c hc
        have hout : collapseWsAux ds true ≠ [] := by
          intro hnil
          have hall := collapseWsAux_empty_all_space ds hnil
          have hgl : ds.getLast? = some (ds.getLast hds_ne) :=
            List.getLast?_eq_getLast ds hds_ne
          have hns := hds_last hds_ne _ hgl
          rw [hall _ (List.getLast_mem hds_ne)] at hns
          exact absurd hns (by simp)
        rw [getLast?_cons_of_ne_nil hout] at hc
        exact ih true (hds_last hds_ne) c hc
    · rw [if_neg hd]
      cases ds with
      | nil =>
        intro c hc
        have he : (d :: collapseWsAux [] false).getLast? = some d := rfl
        rw [he] at hc
        simp only [Option.mem_def, Option.some.injEq] at hc
        subst hc
        exact Bool.eq_false_iff.mpr hd
      | cons e es =>
        intro c hc
        have hout : collapseWsAux (e :: es) false ≠ [] :=
          collapseWsAux_ne_nil_of_head e es false (Or.inr rfl)
        rw [getLast?_cons_of_ne_nil hout] at hc
        exact ih false (hds_last (by simp)) c hc

theorem collapseWsAux_eq_self :
    ∀ s : List Char, SpacesPlain s → NoWsPair s →
      (collapseWsAux s false = s ∧ (HeadNS s → collapseWsAux s true = s)) := by
  intro s
  induction s with
  | nil => intro _ _; exact ⟨rfl, fun _ => rfl⟩
  | cons d ds ih =>
    intro hsp hch
    have hsp' : SpacesPlain ds := fun c hc => hsp c (List.mem_cons_of_mem d hc)
    have hch' : NoWsPair ds := hch.tail
    have IH := ih hsp' hch'
    by_cases hd : isSpaceChar d
    · have hd' : d = ' ' := hsp d (by simp) hd
      have hhead : HeadNS ds := by
        intro y hy
        have := (List.chain'_cons'.mp hch).1 y hy
        by_cases hys : isSpaceChar y
        · exact absurd ⟨hd, hys⟩ this
        · exact Bool.eq_false_iff.mpr hys
      constructor
      · rw [collapseWsAux, if_pos hd, if_neg (by simp)]
        rw [IH.2 hhead, hd']
      · intro hh
        have := hh d (by simp)
        rw [hd] at this
        exact absurd this (by simp)
    · have hrec : collapseWsAux ds false = ds := IH.1
      constructor
      · rw [collapseWsAux, if_neg hd, hrec]
      · intro _
        rw [collapseWsAux, if_neg hd, hrec]

/-- `re.sub(r'\s+', ' ', ·)` is the identity on canonically spaced strings. -/
theorem collapseWs_eq_self {s : List Char} (h1 : SpacesPlain s) (h2 : NoWsPair s) :
    collapseWs s = s :=
  (collapseWsAux_eq_self s h1 h2).1

/-! ## Claim C8: word-run lemmas for the abbreviation replacements -/

theorem bor_mp {a b : Bool} (h : (a || b) = true) : a = true ∨ b = true := by
  rcases a <;> rcases b <;> simp_all

theorem bor_inl {a b : Bool} (h : a = true) : (a || b) = true := by
  simp [h]

theorem bor_inr {a b : Bool} (h : b = true) : (a || b) = true := by
  simp [h]

theorem band_mp {a b : Bool} (h : (a && b) = true) : a = true ∧ b = true := by
  rcases a <;> rcases b <;> simp_all

theorem band_mk {a b : Bool} (h : a = true ∧ b = true) : (a && b) = true := by
  simp [h.1, h.2]


theorem runsP_wordOnly (Q : List Char → Bool) :
    ∀ (w acc : List Char), (∀ c ∈ w, isWordChar c = true) →
      runsP Q w acc =
        (decide (acc.reverse ++ w = []) || Q (acc.reverse ++ w)) := by
  intro w
  induction w with
  | nil =>
    intro acc _
    rw [runsP, List.append_nil]
    have e : decide (acc = []) = decide (acc.reverse = []) := by
      rcases acc with _ | ⟨x, xs⟩ <;> simp
    rw [e]
  | cons c cs ihw =>
    intro acc hw
    rw [runsP, if_pos (hw c (by simp)),
      ihw (c :: acc) (fun d hd => hw d (List.mem_cons_of_mem c hd))]
    simp [List.reverse_cons, List.append_assoc]

theorem runsP_mono (P P' : List Char → Bool)
    (h : ∀ r, P r = true → P' r = true) :
    ∀ (s acc : List Char), runsP P s acc = true → runsP P' s acc = true := by
  intro s
  induction s with
  | nil =>
    intro acc hp
    rw [runsP] at hp ⊢
    rcases bor_mp hp with h1 | h1
    · exact bor_inl h1
    · exact bor_inr (h _ h1)
  | cons c cs ih =>
    intro acc hp
    rw [runsP] at hp ⊢
    by_cases hc : isWordChar c
    · rw [if_pos hc] at hp ⊢
      exact ih _ hp
    · rw [if_neg hc] at hp ⊢
      rcases band_mp hp with ⟨h1, h2⟩
      refine band_mk ⟨?_, ih [] h2⟩
      rcases bor_mp h1 with h3 | h3
      · exact bor_inl h3
      · exact bor_inr (h _ h3)

theorem runsP_of_all (P : List Char → Bool) (h : ∀ r, P r = true) :
    ∀ (s acc : List Char), runsP P s acc = true := by
  intro s
  induction s with
  | nil => intro acc; rw [runsP]; simp [h]
  | cons c cs ih =>
    intro acc
    rw [runsP]
    by_cases hc : isWordChar c
    · rw [if_pos hc]
      exact ih _
    · rw [if_neg hc]
      refine band_mk ⟨by simp [h], ih []⟩

theorem runsP_append_break (Q : List Char → Bool) (c : Char) (v : List Char)
    (hc : isWordChar c = false) (hv : runsP Q (c :: v) [] = true) :
    ∀ (u acc : List Char), runsP Q u acc = true →
      runsP Q (u ++ c :: v) acc = true := by
  intro u
  induction u with
  | nil =>
    intro acc hu
    rw [List.nil_append, runsP, if_neg (by simp [hc])]
    rw [runsP] at hu
    rw [runsP, if_neg (by simp [hc])] at hv
    exact band_mk ⟨hu, (band_mp hv).2⟩
  | cons d u' ih =>
    intro acc hu
    rw [List.cons_append, runsP]
    rw [runsP] at hu
    by_cases hdw : isWordChar d
    · rw [if_pos hdw] at hu ⊢
      exact ih _ hu
    · rw [if_neg hdw] at hu ⊢
      rcases band_mp hu with ⟨h1, h2⟩
      exact band_mk ⟨h1, ih [] h2⟩

theorem runsP_flushWord (abbr repl : List Char) (Q : List Char → Bool)
    (hrepl : runsP Q repl [] = true) (acc : List Char)
    (haccW : ∀ c ∈ acc, isWordChar c = true)
    (hacc : (decide (acc = []) ||
      (decide (acc.reverse = abbr) || Q acc.reverse)) = true) :
    runsP Q (flushWord abbr repl acc) [] = true := by
  unfold flushWord
  by_cases he : acc.reverse = abbr
  · rw [if_pos he]
    exact hrepl
  · rw [if_neg he]
    rw [runsP_wordOnly Q acc.reverse []
      (fun c hc => haccW c (List.mem_reverse.mp hc))]
    simp only [List.reverse_nil, List.nil_append]
    rcases bor_mp hacc with h1 | h1
    · refine bor_inl ?_
      simp only [decide_eq_true_eq] at h1 ⊢
      rw [h1]
      rfl
    · rcases bor_mp h1 with h2 | h2
      · exact absurd (of_decide_eq_true h2) he
      · exact bor_inr h2

theorem replaceWordAux_runsP (abbr repl : List Char) (Q : List Char → Bool)
    (hrepl : runsP Q repl [] = true) :
    ∀ (s acc : List Char), (∀ c ∈ acc, isWordChar c = true) →
      runsP (fun r => decide (r = abbr) || Q r) s acc = true →
      runsP Q (replaceWordAux abbr repl s acc) [] = true := by
  intro s
  induction s with
  | nil =>
    intro acc haccW hsrc
    rw [replaceWordAux]
    rw [runsP] at hsrc
    exact runsP_flushWord abbr repl Q hrepl acc haccW hsrc
  | cons c cs ih =>
    intro acc haccW hsrc
    rw [replaceWordAux]
    rw [runsP] at hsrc
    by_cases hcw : isWordChar c
    · rw [if_pos hcw] at hsrc ⊢
      refine ih (c :: acc) ?_ hsrc
      intro d hd
      rcases List.mem_cons.mp hd with h | h
      · subst h; exact hcw
      · exact haccW d h
    · rw [if_neg hcw] at hsrc ⊢
      rcases band_mp hsrc with ⟨h1, h2⟩
      refine runsP_append_break Q c (replaceWordAux abbr repl cs [])
        (Bool.eq_false_iff.mpr hcw) ?_ (flushWord abbr repl acc) []
        (runsP_flushWord abbr repl Q hrepl acc haccW h1)
      rw [runsP, if_neg (by simp [hcw])]
      exact band_mk ⟨by simp, ih [] (by simp) h2⟩

theorem replaceWordAux_id (abbr repl : List Char) (habbr : abbr ≠ []) :
    ∀ (s acc : List Char),
      runsP (fun r => !decide (r = abbr)) s acc = true →
      replaceWordAux abbr repl s acc = acc.reverse ++ s := by
  intro s
  induction s with
  | nil =>
    intro acc h
    rw [replaceWordAux, List.append_nil]
    unfold flushWord
    rw [runsP] at h
    rcases bor_mp h with h1 | h1
    · have hacc : acc = [] := of_decide_eq_true h1
      subst hacc
      rw [if_neg (by simpa using Ne.symm habbr)]
    · rw [if_neg (by simpa using h1)]
  | cons c cs ih =>
    intro acc h
    rw [replaceWordAux]
    rw [runsP] at h
    by_cases hcw : isWordChar c
    · rw [if_pos hcw] at h ⊢
      rw [ih (c :: acc) h]
      simp [List.reverse_cons, List.append_assoc]
    · rw [if_neg hcw] at h ⊢
      rcases band_mp h with ⟨h1, h2⟩
      rw [ih [] h2, List.reverse_nil, List.nil_append]
      unfold flushWord
      rcases bor_mp h1 with h3 | h3
      · have hacc : acc = [] := of_decide_eq_true h3
        subst hacc
        rw [if_neg (by simpa using Ne.symm habbr)]
      · rw [if_neg (by simpa using h3)]

theorem replaceWord_id (abbr repl s : List Char) (habbr : abbr ≠ [])
    (h : noAbbrRun abbr s = true) : replaceWord abbr repl s = s := by
  unfold noAbbrRun at h
  unfold replaceWord
  rw [replaceWordAux_id abbr repl habbr s [] h, List.reverse_nil,
    List.nil_append]

theorem noAbbrRun_replaceWord_self (abbr repl s : List Char)
    (hrepl : noAbbrRun abbr repl = true) :
    noAbbrRun abbr (replaceWord abbr repl s) = true := by
  unfold noAbbrRun at hrepl ⊢
  unfold replaceWord
  refine replaceWordAux_runsP abbr repl _ hrepl s [] (by simp) ?_
  refine runsP_of_all _ ?_ s []
  intro r
  by_cases h : r = abbr <;> simp [h]

theorem noAbbrRun_replaceWord_other (a abbr repl s : List Char)
    (hs : noAbbrRun a s = true) (hrepl : noAbbrRun a repl = true) :
    noAbbrRun a (replaceWord abbr repl s) = true := by
  unfold noAbbrRun at hs hrepl ⊢
  unfold replaceWord
  refine replaceWordAux_runsP abbr repl _ hrepl s [] (by simp) ?_
  refine runsP_mono _ _ ?_ s [] hs
  intro r hr
  simp only [Bool.or_eq_true]
  exact Or.inr hr

theorem applyReplacements_unfold (s : List Char) :
    applyReplacements s =
      replaceWord "бл".data "блок".data
        (replaceWord "жк".data "жилищен комплекс".data
          (replaceWord "кв".data "квартал".data
            (replaceWord "пл".data "площад".data
              (replaceWord "бул".data "булевард".data
                (replaceWord "ул".data "улица".data s))))) := rfl

theorem noAbbrRun_applyReplacements (s : List Char) :
    noAbbrRun "ул".data (applyReplacements s) = true ∧
    noAbbrRun "бул".data (applyReplacements s) = true ∧
    noAbbrRun "пл".data (applyReplacements s) = true ∧
    noAbbrRun "кв".data (applyReplacements s) = true ∧
    noAbbrRun "жк".data (applyReplacements s) = true ∧
    noAbbrRun "бл".data (applyReplacements s) = true := by
  rw [applyReplacements_unfold]
  refine ⟨?_, ?_, ?_, ?_, ?_, ?_⟩
  · exact noAbbrRun_replaceWord_other _ _ _ _
      (noAbbrRun_replaceWord_other _ _ _ _
        (noAbbrRun_replaceWord_other _ _ _ _
          (noAbbrRun_replaceWord_other _ _ _ _
            (noAbbrRun_replaceWord_other _ _ _ _
              (noAbbrRun_replaceWord_self _ _ _ (by decide)) (by decide))
            (by decide)) (by decide)) (by decide)) (by decide)
  · exact noAbbrRun_replaceWord_other _ _ _ _
      (noAbbrRun_replaceWord_other _ _ _ _
        (noAbbrRun_replaceWord_other _ _ _ _
          (noAbbrRun_replaceWord_other _ _ _ _
            (noAbbrRun_replaceWord_self _ _ _ (by decide)) (by decide))
          (by decide)) (by decide)) (by decide)
  · exact noAbbrRun_replaceWord_other _ _ _ _
      (noAbbrRun_replaceWord_other _ _ _ _
        (noAbbrRun_replaceWord_other _ _ _ _
          (noAbbrRun_replaceWord_self _ _ _ (by decide)) (by decide))
        (by decide)) (by decide)
  · exact noAbbrRun_replaceWord_other _ _ _ _
      (noAbbrRun_replaceWord_other _ _ _ _
        (noAbbrRun_replaceWord_self _ _ _ (by decide)) (by decide)) (by decide)
  · exact noAbbrRun_replaceWord_other _ _ _ _
      (noAbbrRun_replaceWord_self _ _ _ (by decide)) (by decide)
  · exact noAbbrRun_replaceWord_self _ _ _ (by decide)

theorem applyReplacements_eq_self (y : List Char)
    (h1 : noAbbrRun "ул".data y = true) (h2 : noAbbrRun "бул".data y = true)
    (h3 : noAbbrRun "пл".data y = true) (h4 : noAbbrRun "кв".data y = true)
    (h5 : noAbbrRun "жк".data y = true) (h6 : noAbbrRun "бл".data y = true) :
    applyReplacements y = y := by
  rw [applyReplacements_unfold,
    replaceWord_id "ул".data "улица".data y (by decide) h1,
    replaceWord_id "бул".data "булевард".data y (by decide) h2,
    replaceWord_id "пл".data "площад".data y (by decide) h3,
    replaceWord_id "кв".data "квартал".data y (by decide) h4,
    replaceWord_id "жк".data "жилищен комплекс".data y (by decide) h5,
    replaceWord_id "бл".data "блок".data y (by decide) h6]

theorem mem_replaceWordAux (abbr repl : List Char) :
    ∀ (s acc : List Char) (c : Char), c ∈ replaceWordAux abbr repl s acc →
      c ∈ s ∨ c ∈ repl ∨ c ∈ acc := by
  intro s
  induction s with
  | nil =>
    intro acc c hc
    rw [replaceWordAux] at hc
    unfold flushWord at hc
    split at hc
    · exact Or.inr (Or.inl hc)
    · exact Or.inr (Or.inr (List.mem_reverse.mp hc))
  | cons d ds ih =>
    intro acc c hc
    rw [replaceWordAux] at hc
    by_cases hdw : isWordChar d
    · rw [if_pos hdw] at hc
      rcases ih (d :: acc) c hc with h | h | h
      · exact Or.inl (List.mem_cons_of_mem d h)
      · exact Or.inr (Or.inl h)
      · rcases List.mem_cons.mp h with h' | h'
        · exact Or.inl (by simp [h'])
        · exact Or.inr (Or.inr h')
    · rw [if_neg hdw] at hc
      rcases List.mem_append.mp hc with h | h
      · unfold flushWord at h
        split at h
        · exact Or.inr (Or.inl h)
        · exact Or.inr (Or.inr (List.mem_reverse.mp h))
      · rcases List.mem_cons.mp h with h' | h'
        · exact Or.inl (by simp [h'])
        · rcases ih [] c h' with h'' | h'' | h''
          · exact Or.inl (List.mem_cons_of_mem d h'')
          · exact Or.inr (Or.inl h'')
          · simp at h''

theorem mem_replaceWord {abbr repl s : List Char} {c : Char}
    (hc : c ∈ replaceWord abbr repl s) : c ∈ s ∨ c ∈ repl := by
  rcases mem_replaceWordAux abbr repl s [] c hc with h | h | h
  · exact Or.inl h
  · exact Or.inr h
  · simp at h

theorem replaceWord_spacesPlain {abbr repl s : List Char}
    (hreplS : SpacesPlain repl) (hs : SpacesPlain s) :
    SpacesPlain (replaceWord abbr repl s) := by
  intro c hc hsp
  rcases mem_replaceWord hc with h | h
  · exact hs c h hsp
  · exact hreplS c h hsp

theorem replaceWord_lowerStable {abbr repl s : List Char}
    (hreplL : LowerStable repl) (hs : LowerStable s) :
    LowerStable (replaceWord abbr repl s) := by
  intro c hc
  rcases mem_replaceWord hc with h | h
  · exact hs c h
  · exact hreplL c h

theorem word_space_false {c : Char} (h : isWordChar c = true) :
    isSpaceChar c = false := by
  by_cases hsp : isSpaceChar c
  · rw [word_not_space hsp] at h
    exact absurd h (by simp)
  · exact Bool.eq_false_iff.mpr hsp

theorem head?_append_left {u v : List Char} (h : u ≠ []) :
    (u ++ v).head? = u.head? := by
  rcases u with _ | ⟨x, xs⟩
  · exact absurd rfl h
  · rfl

theorem mem_of_head? {l : List Char} {e : Char} (h : e ∈ l.head?) : e ∈ l := by
  rcases l with _ | ⟨x, xs⟩
  · simp at h
  · simp only [List.head?_cons, Option.mem_def, Option.some.injEq] at h
    subst h
    simp

theorem mem_of_getLast? {l : List Char} {a : Char} (h : a ∈ l.getLast?) :
    a ∈ l := by
  induction l with
  | nil => simp at h
  | cons x xs ih =>
    cases xs with
    | nil =>
      simp only [List.getLast?_singleton, Option.mem_def, Option.some.injEq] at h
      subst h
      simp
    | cons y ys =>
      rw [List.getLast?_cons_cons] at h
      exact List.mem_cons_of_mem x (ih h)

theorem getLast?_append_right {u v : List Char} (h : v ≠ []) :
    (u ++ v).getLast? = v.getLast? := by
  rw [← List.head?_reverse, List.reverse_append,
    head?_append_left (by simpa using h), List.head?_reverse]

theorem option_all_mem {p : Char → Bool} {o : Option Char} (h : o.all p = true) :
    ∀ c ∈ o, p c = true := by
  intro c hc
  rcases o with _ | x
  · simp at hc
  · simp only [Option.mem_def, Option.some.injEq] at hc
    subst hc
    simpa [Option.all] using h

theorem flushWord_head (abbr repl acc : List Char)
    (hreplH : ∀ c ∈ repl.head?, isWordChar c = true)
    (haccW : ∀ c ∈ acc, isWordChar c = true) :
    ∀ e ∈ (flushWord abbr repl acc).head?, isWordChar e = true := by
  intro e he
  unfold flushWord at he
  split at he
  · exact hreplH e he
  · exact haccW e (List.mem_reverse.mp (mem_of_head? he))

theorem flushWord_last (abbr repl acc : List Char)
    (hreplL : ∀ c ∈ repl.getLast?, isWordChar c = true)
    (haccW : ∀ c ∈ acc, isWordChar c = true) :
    ∀ e ∈ (flushWord abbr repl acc).getLast?, isWordChar e = true := by
  intro e he
  unfold flushWord at he
  split at he
  · exact hreplL e he
  · exact haccW e (List.mem_reverse.mp (mem_of_getLast? he))

theorem flushWord_ne_nil {abbr repl acc : List Char} (hrepl : repl ≠ [])
    (hacc : acc ≠ []) : flushWord abbr repl acc ≠ [] := by
  unfold flushWord
  split
  · exact hrepl
  · simpa using hacc

theorem replaceWordAux_ne_nil (abbr repl : List Char) (hrepl : repl ≠ []) :
    ∀ (s acc : List Char), acc ≠ [] ∨ s ≠ [] →
      replaceWordAux abbr repl s acc ≠ [] := by
  intro s
  induction s with
  | nil =>
    intro acc h
    rcases h with h | h
    · rw [replaceWordAux]
      exact flushWord_ne_nil hrepl h
    · exact absurd rfl h
  | cons d ds ih =>
    intro acc _
    rw [replaceWordAux]
    by_cases hdw : isWordChar d
    · rw [if_pos hdw]
      exact ih (d :: acc) (Or.inl (by simp))
    · rw [if_neg hdw]
      intro hem
      rcases List.append_eq_nil.mp hem with ⟨-, h2⟩
      exact List.cons_ne_nil _ _ h2

theorem head_replaceWordAux_acc_ne (abbr repl : List Char)
    (hreplH : ∀ c ∈ repl.head?, isWordChar c = true) (hrepl : repl ≠ []) :
    ∀ (s acc : List Char), acc ≠ [] → (∀ c ∈ acc, isWordChar c = true) →
      ∀ e ∈ (replaceWordAux abbr repl s acc).head?, isWordChar e = true := by
  intro s
  induction s with
  | nil =>
    intro acc hacc haccW e he
    rw [replaceWordAux] at he
    exact flushWord_head abbr repl acc hreplH haccW e he
  | cons d ds ih =>
    intro acc hacc haccW e he
    rw [replaceWordAux] at he
    by_cases hdw : isWordChar d
    · rw [if_pos hdw] at he
      refine ih (d :: acc) (by simp) ?_ e he
      intro x hx
      rcases List.mem_cons.mp hx with h | h
      · subst h; exact hdw
      · exact haccW x h
    · rw [if_neg hdw] at he
      rw [head?_append_left (flushWord_ne_nil hrepl hacc)] at he
      exact flushWord_head abbr repl acc hreplH haccW e he

theorem replaceWordAux_head (abbr repl : List Char)
    (hreplH : ∀ c ∈ repl.head?, isWordChar c = true) (hrepl : repl ≠ [])
    (habbr : abbr ≠ []) :
    ∀ (s acc : List Char), (∀ c ∈ acc, isWordChar c = true) →
      ∀ e ∈ (replaceWordAux abbr repl s acc).head?,
        isWordChar e = true ∨ s.head? = some e := by
  intro s
  induction s with
  | nil =>
    intro acc haccW e he
    rw [replaceWordAux] at he
    exact Or.inl (flushWord_head abbr repl acc hreplH haccW e he)
  | cons d ds ih =>
    intro acc haccW e he
    rw [replaceWordAux] at he
    by_cases hdw : isWordChar d
    · rw [if_pos hdw] at he
      left
      refine head_replaceWordAux_acc_ne abbr repl hreplH hrepl ds (d :: acc)
        (by simp) ?_ e he
      intro x hx
      rcases List.mem_cons.mp hx with h | h
      · subst h; exact hdw
      · exact haccW x h
    · rw [if_neg hdw] at he
      by_cases hacc : acc = []
      · subst hacc
        have hfl : flushWord abbr repl [] = [] := by
          unfold flushWord
          rw [if_neg (by simpa using Ne.symm habbr)]
          rfl
        rw [hfl, List.nil_append] at he
        right
        simp only [List.head?_cons, Option.mem_def, Option.some.injEq] at he ⊢
        rw [he]
      · rw [head?_append_left (flushWord_ne_nil hrepl hacc)] at he
        exact Or.inl (flushWord_head abbr repl acc hreplH haccW e he)

theorem replaceWordAux_last (abbr repl : List Char)
    (hreplL : ∀ c ∈ repl.getLast?, isWordChar c = true) (hrepl : repl ≠ []) :
    ∀ (s acc : List Char), (∀ c ∈ acc, isWordChar c = true) →
      ∀ e ∈ (replaceWordAux abbr repl s acc).getLast?,
        isWordChar e = true ∨ s.getLast? = some e := by
  intro s
  induction s with
  | nil =>
    intro acc haccW e he
    rw [replaceWordAux] at he
    exact Or.inl (flushWord_last abbr repl acc hreplL haccW e he)
  | cons d ds ih =>
    intro acc haccW e he
    rw [replaceWordAux] at he
    by_cases hdw : isWordChar d
    · rw [if_pos hdw] at he
      rcases ih (d :: acc) (by
        intro x hx
        rcases List.mem_cons.mp hx with h | h
        · subst h; exact hdw
        · exact haccW x h) e he with h | h
      · exact Or.inl h
      · right
        have hne : ds ≠ [] := by
          intro h0
          subst h0
          simp at h
        rw [getLast?_cons_of_ne_nil hne]
        exact h
    · rw [if_neg hdw] at he
      rw [getLast?_append_right (List.cons_ne_nil _ _)] at he
      rcases hrest : replaceWordAux abbr repl ds [] with _ | ⟨x, xs⟩
      · rw [hrest] at he
        have hds : ds = [] := by
          by_contra hne
          exact (replaceWordAux_ne_nil abbr repl hrepl ds [] (Or.inr hne)) hrest
        subst hds
        right
        simp only [List.getLast?_singleton, Option.mem_def,
          Option.some.injEq] at he
        simp [he]
      · rw [hrest, getLast?_cons_of_ne_nil (List.cons_ne_nil _ _), ← hrest] at he
        rcases ih [] (by simp) e he with h | h
        · exact Or.inl h
        · right
          have hne : ds ≠ [] := by
            intro h0
            subst h0
            simp at h
          rw [getLast?_cons_of_ne_nil hne]
          exact h

theorem noWsPair_of_check : ∀ l : List Char, noWsPairB l = true → NoWsPair l := by
  intro l
  induction l with
  | nil => intro _; exact List.chain'_nil
  | cons a l ih =>
    intro h
    cases l with
    | nil => exact List.chain'_singleton a
    | cons b l' =>
      rw [noWsPairB] at h
      rcases band_mp h with ⟨h1, h2⟩
      refine List.chain'_cons.mpr ⟨?_, ih h2⟩
      rintro ⟨ha, hb⟩
      rw [ha, hb] at h1
      exact absurd h1 (by simp)

theorem noWsPair_of_all_word {l : List Char}
    (h : ∀ c ∈ l, isWordChar c = true) : NoWsPair l := by
  unfold NoWsPair
  induction l with
  | nil => exact List.chain'_nil
  | cons x xs ih =>
    rw [List.chain'_cons']
    refine ⟨?_, ih (fun c hc => h c (List.mem_cons_of_mem x hc))⟩
    intro y _
    rintro ⟨hx, -⟩
    rw [word_space_false (h x (by simp))] at hx
    exact Bool.false_ne_true hx

theorem flushWord_chain (abbr repl acc : List Char)
    (hreplC : NoWsPair repl) (haccW : ∀ c ∈ acc, isWordChar c = true) :
    NoWsPair (flushWord abbr repl acc) := by
  unfold flushWord
  split
  · exact hreplC
  · exact noWsPair_of_all_word (fun c hc => haccW c (List.mem_reverse.mp hc))

theorem replaceWordAux_noWsPair (abbr repl : List Char) (habbr : abbr ≠ [])
    (hrepl : repl ≠ []) (hreplH : ∀ c ∈ repl.head?, isWordChar c = true)
    (hreplL : ∀ c ∈ repl.getLast?, isWordChar c = true) (hreplC : NoWsPair repl) :
    ∀ (s acc : List Char), (∀ c ∈ acc, isWordChar c = true) → NoWsPair s →
      NoWsPair (replaceWordAux abbr repl s acc) := by
  intro s
  induction s with
  | nil =>
    intro acc haccW _
    rw [replaceWordAux]
    exact flushWord_chain abbr repl acc hreplC haccW
  | cons d ds ih =>
    intro acc haccW hch
    rw [replaceWordAux]
    by_cases hdw : isWordChar d
    · rw [if_pos hdw]
      refine ih (d :: acc) ?_ (List.Chain'.tail hch)
      intro x hx
      rcases List.mem_cons.mp hx with h | h
      · subst h; exact hdw
      · exact haccW x h
    · rw [if_neg hdw]
      unfold NoWsPair
      rw [List.chain'_append]
      refine ⟨flushWord_chain abbr repl acc hreplC haccW, ?_, ?_⟩
      · rw [List.chain'_cons']
        refine ⟨?_, ih [] (by simp) (List.Chain'.tail hch)⟩
        intro y hy
        rintro ⟨hd2, hy2⟩
        rcases replaceWordAux_head abbr repl hreplH hrepl habbr ds []
          (by simp) y hy with h | h
        · rw [word_space_false h] at hy2
          exact Bool.false_ne_true hy2
        · exact (List.chain'_cons'.mp hch).1 y h ⟨hd2, hy2⟩
      · intro x hx y _
        rintro ⟨hx2, -⟩
        have hxw := flushWord_last abbr repl acc hreplL haccW x hx
        rw [word_space_false hxw] at hx2
        exact Bool.false_ne_true hx2

theorem replaceWord_canon (abbr repl : List Char) (habbr : abbr ≠ [])
    (hrepl : repl ≠ [])
    (hreplH : (repl.head?.all isWordChar) = true)
    (hreplL : (repl.getLast?.all isWordChar) = true)
    (hreplC : NoWsPair repl) (hreplS : SpacesPlain repl)
    (hreplLS : LowerStable repl)
    {z : List Char} (h : Canon5 z) : Canon5 (replaceWord abbr repl z) := by
  obtain ⟨hLS, hH, hL, hSP, hNW⟩ := h
  refine ⟨replaceWord_lowerStable hreplLS hLS, ?_, ?_,
    replaceWord_spacesPlain hreplS hSP, ?_⟩
  · intro e he
    unfold replaceWord at he
    rcases replaceWordAux_head abbr repl (option_all_mem hreplH) hrepl habbr
      z [] (by simp) e he with hw | hh
    · exact word_space_false hw
    · exact hH e hh
  · intro e he
    unfold replaceWord at he
    rcases replaceWordAux_last abbr repl (option_all_mem hreplL) hrepl
      z [] (by simp) e he with hw | hh
    · exact word_space_false hw
    · exact hL e hh
  · unfold replaceWord
    exact replaceWordAux_noWsPair abbr repl habbr hrepl
      (option_all_mem hreplH) (option_all_mem hreplL) hreplC z [] (by simp) hNW

theorem applyReplacements_canon {z : List Char} (h : Canon5 z) :
    Canon5 (applyReplacements z) := by
  rw [applyReplacements_unfold]
  refine replaceWord_canon _ _ (by decide) (by decide) (by decide) (by decide)
    (noWsPair_of_check _ (by decide)) (by decide) (by decide) ?_
  refine replaceWord_canon _ _ (by decide) (by decide) (by decide) (by decide)
    (noWsPair_of_check _ (by decide)) (by decide) (by decide) ?_
  refine replaceWord_canon _ _ (by decide) (by decide) (by decide) (by decide)
    (noWsPair_of_check _ (by decide)) (by decide) (by decide) ?_
  refine replaceWord_canon _ _ (by decide) (by decide) (by decide) (by decide)
    (noWsPair_of_check _ (by decide)) (by decide) (by decide) ?_
  refine replaceWord_canon _ _ (by decide) (by decide) (by decide) (by decide)
    (noWsPair_of_check _ (by decide)) (by decide) (by decide) ?_
  exact replaceWord_canon _ _ (by decide) (by decide) (by decide) (by decide)
    (noWsPair_of_check _ (by decide)) (by decide) (by decide) h

theorem canon_collapse_strip_lower (x : List Char) :
    Canon5 (collapseWs (stripStr (lowerStr x))) := by
  unfold collapseWs
  refine ⟨?_, ?_, ?_, ?_, ?_⟩
  · intro c hc
    rcases mem_collapseWsAux (stripStr (lowerStr x)) false c hc with ⟨h1, -⟩ | h1
    · have h2 : c ∈ lowerStr x := mem_stripStr c h1
      rcases List.mem_map.mp h2 with ⟨d, -, hd⟩
      rw [← hd]
      exact toLowerChar_idem d
    · rw [h1]
      decide
  · exact collapseWsAux_headNS (stripStr (lowerStr x)) (stripStr_headNS (lowerStr x))
  · exact collapseWsAux_lastNS (stripStr (lowerStr x)) false (stripStr_lastNS (lowerStr x))
  · exact collapseWsAux_spacesPlain (stripStr (lowerStr x)) false
  · exact collapseWsAux_chain (stripStr (lowerStr x)) false

theorem normalize_address_canon (x : List Char) : Canon5 (normalize_address x) := by
  unfold normalize_address
  split
  · exact ⟨fun c hc => absurd hc (List.not_mem_nil c),
      fun c hc => absurd hc (by simp),
      fun c hc => absurd hc (by simp),
      fun c hc _ => absurd hc (List.not_mem_nil c), List.chain'_nil⟩
  · exact applyReplacements_canon (canon_collapse_strip_lower x)

/-! ## Claim C8 -/

/-- C8: address normalization is idempotent — `_normalize_address` applied to
its own output returns it unchanged; in particular no abbreviation expansion
re-fires: every maximal word run of the output differs from each of the six
abbreviations, so each `\b`-anchored substitution is the identity on it. -/
theorem c8_normalize_idempotent (x : List Char) :
    normalize_address (normalize_address x) = normalize_address x := by
  have hdef : ∀ a : List Char, normalize_address a =
      if a = [] then []
      else applyReplacements (collapseWs (stripStr (lowerStr a))) :=
    fun _ => rfl
  by_cases hx : x = []
  · subst hx
    rfl
  · obtain ⟨hLS, hH, hL, hSP, hNW⟩ := normalize_address_canon x
    have hy : normalize_address x =
        applyReplacements (collapseWs (stripStr (lowerStr x))) := by
      rw [hdef x, if_neg hx]
    obtain ⟨n1, n2, n3, n4, n5, n6⟩ :=
      noAbbrRun_applyReplacements (collapseWs (stripStr (lowerStr x)))
    rw [← hy] at n1 n2 n3 n4 n5 n6
    by_cases hnil : normalize_address x = []
    · rw [hnil]
      rfl
    · rw [hdef (normalize_address x), if_neg hnil,
        lowerStr_eq_self hLS, stripStr_eq_self hH hL,
        collapseWs_eq_self hSP hNW,
        applyReplacements_eq_self _ n1 n2 n3 n4 n5 n6]

end Grid
